import Mathlib

/-!
Shallow embedding of the RichTGale/astar pathfinding library (the `src/src`
generation of the sources: array.c, edge/node/graph types, min_heap.c,
astar.c), together with proofs about the embedded program.

Modelling conventions:
* Machine integers become `Nat` with an explicit `% 2 ^ 64` wherever a
  `uint64_t` computation can wrap (`g`/`f` updates); the `UINT64_MAX`
  sentinel is `INF`.
* Node pointers become indices into the graph's node list; pointer equality
  of nodes in the C code becomes index equality; `NULL` becomes `none`.
* The `array` type (a singly linked list in C) becomes `List`.
* Fatal error paths (`exit(EXIT_FAILURE)`) become `Except Unit` errors or
  `Option` `none` results; the unbounded C loops become fuel-indexed
  recursions, with the fuel chosen large enough that exhaustion is
  unreachable for the executions a theorem talks about.
-/

set_option maxRecDepth 200000

namespace AstarC

/-- `2 ^ 64`, the wrap-around modulus of the C `uint64_t` arithmetic. -/
def U64 : Nat := 2 ^ 64

/-- `UINT64_MAX`, the "infinite"/unknown sentinel stored in `g` and `f`
by `node_init` and `node_reset`. -/
def INF : Nat := U64 - 1

/-- `enum graph_style { MANHATTAN, DIAGONAL }` from graph.h. -/
inductive GraphStyle where
  | MANHATTAN
  | DIAGONAL
deriving DecidableEq

/-- `enum node_type { PASSABLE, IMPASSABLE }` from node.h. -/
inductive NodeType where
  | PASSABLE
  | IMPASSABLE
deriving DecidableEq

/-- `struct edge_data` as used by node.c: a back reference to the
neighbouring node the transition comes from (`neighbourp`, here an index)
and the `uint8_t` weight. -/
structure EdgeData where
  nbr : Nat
  w : Nat
deriving DecidableEq

/-- `struct node_data` from node.c: coordinates, the neighbour array, the
edge array, the `came_from` back pointer and the `g`/`f` search scratch. -/
structure NodeData where
  x : Nat
  y : Nat
  z : Nat
  neighbours : List Nat
  edges : List EdgeData
  cameFrom : Option Nat
  g : Nat
  f : Nat
  typ : NodeType
deriving DecidableEq

/-- `node_init` from node.c. -/
def node_init (x y z : Nat) (t : NodeType) : NodeData :=
  ⟨x, y, z, [], [], none, INF, INF, t⟩

instance : Inhabited NodeData := ⟨node_init 0 0 0 .PASSABLE⟩

instance : Inhabited EdgeData := ⟨⟨0, 0⟩⟩

/-- `struct graph_data` from graph.c; the 3-dimensional `node***` array is
flattened into a list indexed by `(x * ysize + y) * zsize + z`. -/
structure Graph where
  nodes : List NodeData
  xsize : Nat
  ysize : Nat
  zsize : Nat
  gstyle : GraphStyle
deriving DecidableEq

/-- Dereference a node pointer: node with index `i` of the graph. -/
def Graph.node (gp : Graph) (i : Nat) : NodeData := gp.nodes.getD i default

/-- Write back a node through its pointer. -/
def Graph.setNode (gp : Graph) (i : Nat) (n : NodeData) : Graph :=
  { gp with nodes := gp.nodes.set i n }

/-- Number of nodes of the graph (`xsize * ysize * zsize` once built). -/
def numNodes (gp : Graph) : Nat := gp.nodes.length

/-- The flat index of the node `graph_get_node(g, x, y, z)` returns. -/
def coordId (gp : Graph) (x y z : Nat) : Nat :=
  (x * gp.ysize + y) * gp.zsize + z

/-- `node_set_g` from node.c. -/
def node_set_g (gp : Graph) (i v : Nat) : Graph :=
  gp.setNode i { gp.node i with g := v }

/-- `node_get_neighbouring_edge(np1, n2)` from node.c: the first edge in
`n2`'s edge list whose neighbour pointer is `np1`.  `none` models the
"edge wasn't found" fatal exit branch. -/
def node_get_neighbouring_edge (gp : Graph) (np1 n2 : Nat) : Option EdgeData :=
  (gp.node n2).edges.find? (fun e => e.nbr == np1)

/-- `node_add_neighbour` from node.c (an `array_push_back`). -/
def node_add_neighbour (gp : Graph) (i nb : Nat) : Graph :=
  gp.setNode i { gp.node i with neighbours := (gp.node i).neighbours ++ [nb] }

/-- `node_add_edge(fromp, top, weight)` from node.c: if `top` already has an
edge whose neighbour pointer is `fromp` the call only prints a warning and
changes nothing; otherwise a new edge `{fromp, weight}` is pushed onto
`top`'s edge list and `top` onto `fromp`'s neighbour list. -/
def node_add_edge (gp : Graph) (fromid toid w : Nat) : Graph :=
  if ((gp.node toid).edges.find? (fun e => e.nbr == fromid)).isSome then gp
  else
    node_add_neighbour
      (gp.setNode toid
        { gp.node toid with edges := (gp.node toid).edges ++ [⟨fromid, w⟩] })
      fromid toid

/-- `graph_add_edge` from graph.c (a pass-through to `node_add_edge`). -/
def graph_add_edge (gp : Graph) (fromid toid w : Nat) : Graph :=
  node_add_edge gp fromid toid w

/-- The loop body of `node_remove_neighbour` from node.c.  The C loop keeps
iterating up to the *pre-removal* size `num` even after `array_pop_data`
shrank the array, reading `array_get_data(neighbours, i)` each time; an
out-of-bounds read there is the `exit(INDEX_OUT_OF_BOUNDS_ERROR)` branch of
`array_get_data`, modelled as `.error`.  (When the element popped is the
list head the C code additionally loses the owner's head pointer — a
use-after-free; the executions our theorems exercise never pop the head, so
the model can treat `array_pop_data` as a plain removal.)  The first
argument counts the remaining iterations, i.e. `num - i`. -/
def rm_nb_loop (victim : Nat) : Nat → Nat → List Nat → Except Unit (List Nat)
  | 0, _, l => .ok l
  | k + 1, i, l =>
    match l.get? i with
    | none => .error ()
    | some nb =>
      if nb = victim then rm_nb_loop victim k (i + 1) (l.eraseIdx i)
      else rm_nb_loop victim k (i + 1) l

/-- `node_remove_neighbour(np, neighbourp)` from node.c. -/
def node_remove_neighbour (gp : Graph) (i victim : Nat) : Except Unit Graph :=
  let ns := (gp.node i).neighbours
  match rm_nb_loop victim ns.length 0 ns with
  | .error () => .error ()
  | .ok ns' => .ok (gp.setNode i { gp.node i with neighbours := ns' })

/-- The edge-scanning loop of `node_remove_edge` from node.c: iterate `e`
over `top`'s edge list (the loop condition re-reads the live size), and on
a match pop the edge and call `node_remove_neighbour(fromp, top)`. -/
def rm_edge_loop (fromid toid : Nat) : Nat → Nat → Graph → Except Unit Graph
  | 0, _, gp => .ok gp
  | fuel + 1, e, gp =>
    let edges := (gp.node toid).edges
    if e < edges.length then
      if (edges.getD e default).nbr = fromid then
        let gp1 := gp.setNode toid { gp.node toid with edges := edges.eraseIdx e }
        match node_remove_neighbour gp1 fromid toid with
        | .error () => .error ()
        | .ok gp2 => rm_edge_loop fromid toid fuel (e + 1) gp2
      else rm_edge_loop fromid toid fuel (e + 1) gp
    else .ok gp

/-- `node_remove_edge(fromp, top)` from node.c. -/
def node_remove_edge (gp : Graph) (fromid toid : Nat) : Except Unit Graph :=
  rm_edge_loop fromid toid ((gp.node toid).edges.length + 1) 0 gp

/-- `graph_remove_edge` from graph.c (a pass-through to `node_remove_edge`). -/
def graph_remove_edge (gp : Graph) (fromid toid : Nat) : Except Unit Graph :=
  node_remove_edge gp fromid toid

/-- `node_reset` from node.c. -/
def node_reset (n : NodeData) : NodeData :=
  { n with cameFrom := none, g := INF, f := INF }

/-- `graph_reset` from graph.c: `node_reset` on every node. -/
def graph_reset (gp : Graph) : Graph :=
  { gp with nodes := gp.nodes.map node_reset }

/-- `graph_valid_coord` from graph.c. -/
def graph_valid_coord (gp : Graph) (x y z : Int) : Bool :=
  decide (0 ≤ x) && decide (x < (gp.xsize : Int)) &&
  decide (0 ≤ y) && decide (y < (gp.ysize : Int)) &&
  decide (0 ≤ z) && decide (z < (gp.zsize : Int))

/-- `manhattan_relationship` from graph.c (`src/src` version). -/
def manhattan_relationship (xoff yoff zoff : Int) : Bool :=
  (xoff == 0 && yoff == 0 && zoff == 1) ||
  (xoff == 0 && yoff == 1 && zoff == 0) ||
  (xoff == 1 && yoff == 0 && zoff == 0) ||
  (xoff == 0 && yoff == 0 && zoff == -1) ||
  (xoff == 0 && yoff == -1 && zoff == 0) ||
  (xoff == -1 && yoff == 0 && zoff == 0)

/-- `diagonal_relationship` from graph.c (`src/src` version), translated
clause by clause. -/
def diagonal_relationship (xoff yoff zoff : Int) : Bool :=
  manhattan_relationship xoff yoff zoff ||
  ((xoff == -1 && yoff == -1 && zoff != -1) ||
   (xoff == 0 && yoff == -1 && zoff != -1) ||
   (xoff == 1 && yoff == -1 && zoff != -1) ||
   (xoff == -1 && yoff == -1 && zoff != 0) ||
   (xoff == 1 && yoff == -1 && zoff != 0) ||
   (xoff == -1 && yoff == -1 && zoff != 1) ||
   (xoff == 0 && yoff == -1 && zoff != 1) ||
   (xoff == 1 && yoff == -1 && zoff != 1) ||
   (xoff == -1 && yoff == 0 && zoff != -1) ||
   (xoff == 1 && yoff == 0 && zoff != -1) ||
   (xoff == -1 && yoff == 0 && zoff != 1) ||
   (xoff == 1 && yoff == 0 && zoff != 1) ||
   (xoff == -1 && yoff == 1 && zoff != -1) ||
   (xoff == 0 && yoff == 1 && zoff != -1) ||
   (xoff == 1 && yoff == 1 && zoff != -1) ||
   (xoff == -1 && yoff == 1 && zoff != 0) ||
   (xoff == 1 && yoff == 1 && zoff != 0) ||
   (xoff == -1 && yoff == 1 && zoff != 1) ||
   (xoff == 0 && yoff == 1 && zoff != 1) ||
   (xoff == 1 && yoff == 1 && zoff != 1))

/-- The coordinate offsets `-1, 0, 1` in the order the three nested `for`
loops of `graph_collect_neighbours` enumerate them. -/
def offs : List Int := [-1, 0, 1]

/-- `graph_collect_neighbours(gp, np)` from graph.c: for each offset triple
with the style's relationship whose target coordinate is valid, push the
target node onto `np`'s neighbour array. -/
def graph_collect_neighbours (gp : Graph) (i : Nat) : Graph :=
  let nx := (gp.node i).x
  let ny := (gp.node i).y
  let nz := (gp.node i).z
  let style := gp.gstyle
  offs.foldl (fun g1 xoff =>
    offs.foldl (fun g2 yoff =>
      offs.foldl (fun g3 zoff =>
        let x : Int := (nx : Int) + xoff
        let y : Int := (ny : Int) + yoff
        let z : Int := (nz : Int) + zoff
        let manh := manhattan_relationship xoff yoff zoff
        let diag := diagonal_relationship xoff yoff zoff
        if ((style = .MANHATTAN ∧ manh) ∨ (style = .DIAGONAL ∧ diag)) ∧
            graph_valid_coord g3 x y z then
          node_add_neighbour g3 i (coordId g3 x.toNat y.toNat z.toNat)
        else g3) g2) g1) gp

/-- `graph_init_edges(gp, np)` from graph.c together with the
`node_init_edges` call it makes: for each neighbour of node `i` (in order),
push an edge `{i, w}` onto the neighbour's edge list, where `w` is `1` for
a `PASSABLE` neighbour and `0` otherwise. -/
def graph_init_edges (gp : Graph) (i : Nat) : Graph :=
  (gp.node i).neighbours.foldl (fun g nb =>
    let w := if (g.node nb).typ = .PASSABLE then 1 else 0
    g.setNode nb { g.node nb with edges := (g.node nb).edges ++ [⟨i, w⟩] }) gp

/-- `graph_init_nodes` from graph.c: create all nodes (`PASSABLE`, sentinel
scratch), then for each node in index order collect its neighbours and
create the edges of its neighbours. -/
def graph_init_nodes (gp : Graph) : Graph :=
  let g1 : Graph :=
    { gp with
      nodes := (List.range (gp.xsize * gp.ysize * gp.zsize)).map (fun i =>
        node_init (i / (gp.ysize * gp.zsize)) ((i / gp.zsize) % gp.ysize)
          (i % gp.zsize) .PASSABLE) }
  (List.range (numNodes g1)).foldl (fun g i =>
    graph_init_edges (graph_collect_neighbours g i) i) g1

/-- `graph_init` from graph.c. -/
def graph_init (xsize ysize zsize : Nat) (style : GraphStyle) : Graph :=
  graph_init_nodes ⟨[], xsize, ysize, zsize, style⟩

/-- `astar_h` from astar.c (`src/src` version): per-axis absolute
differences; `MANHATTAN` returns their sum, `DIAGONAL` returns
`(dx+dy+dz) + (1-3)*min` computed in C `int` arithmetic. -/
def astar_h (a b : NodeData) (style : GraphStyle) : Nat :=
  let dx := ((a.x : Int) - (b.x : Int)).natAbs
  let dy := ((a.y : Int) - (b.y : Int)).natAbs
  let dz := ((a.z : Int) - (b.z : Int)).natAbs
  match style with
  | .MANHATTAN => dx + dy + dz
  | .DIAGONAL =>
    let m0 := if dx < dy then dx else dy
    let m := if m0 < dz then m0 else dz
    (((dx : Int) + (dy : Int) + (dz : Int)) + (1 - 3) * (m : Int)).toNat

/-! ## The min_heap type (min_heap.c)

The heap stores opaque references; the priority of a stored value is read
back at every comparison through a key function (`node_get_f` in `NODE`
mode, the integer itself in `INTEGER` mode).  The backing `array` is a
`List α`; `num_elems` always equals its length. -/

/-- Index of the parent of heap slot `i` (`(child_index - 1) / 2`). -/
def parentIdx (i : Nat) : Nat := (i - 1) / 2

/-- `array_get_data` on the heap's backing storage. -/
def hGet [Inhabited α] (l : List α) (i : Nat) : α := l.getD i default

/-- The two `array_set_data` calls that swap slots `i` and `j` (both values
are read before either write). -/
def swapAt [Inhabited α] (l : List α) (i j : Nat) : List α :=
  (l.set i (hGet l j)).set j (hGet l i)

/-- `min_heap_float_up(mhp, child_index)` from min_heap.c: while the child's
priority is lower than its parent's, swap them and continue from the parent
index.  The first argument is recursion fuel; fuel `≥ child_index` makes it
exact, since the index strictly decreases. -/
def min_heap_float_up [Inhabited α] (key : α → Nat) :
    Nat → List α → Nat → List α
  | 0, l, _ => l
  | fuel + 1, l, ci =>
    if 0 < ci then
      let pi := parentIdx ci
      if key (hGet l ci) < key (hGet l pi) then
        min_heap_float_up key fuel (swapAt l ci pi) pi
      else l
    else l

/-- `min_heap_add` from min_heap.c: push back, then float the new element up
from index `num_elems`. -/
def min_heap_add [Inhabited α] (key : α → Nat) (l : List α) (x : α) : List α :=
  min_heap_float_up key l.length (l ++ [x]) l.length

/-- `min_heap_sink_down(mhp, parent_index)` from min_heap.c: pick the child
with the lower priority (the right child on a tie, per `<`), swap if it is
lower than the parent, recurse from the child's index.  Fuel `≥ length`
makes it exact, since the index strictly increases and is bounded by the
length. -/
def min_heap_sink_down [Inhabited α] (key : α → Nat) :
    Nat → List α → Nat → List α
  | 0, l, _ => l
  | fuel + 1, l, pi =>
    let n := l.length
    let li := 2 * pi + 1
    let ri := 2 * pi + 2
    let mi := if li < n ∧ ri < n then
                (if key (hGet l li) < key (hGet l ri) then li else ri)
              else if li < n then li else pi
    if mi ≠ pi ∧ key (hGet l mi) < key (hGet l pi) then
      min_heap_sink_down key fuel (swapAt l mi pi) mi
    else l

/-- `min_heap_is_empty` from min_heap.c. -/
def min_heap_is_empty (l : List α) : Bool := l.isEmpty

/-- `min_heap_val_exists` from min_heap.c: linear scan for reference
identity. -/
def min_heap_val_exists [DecidableEq α] : List α → α → Bool
  | [], _ => false
  | a :: t, x => (a = x : Bool) || min_heap_val_exists t x

/-- `min_heap_pop_min` from min_heap.c: with more than one element, move the
last element over the root and sink it down; with exactly one, pop it;
`none` models the fatal "heap is empty" exit. -/
def min_heap_pop_min [Inhabited α] (key : α → Nat) (l : List α) :
    Option (α × List α) :=
  if 1 < l.length then
    let l' := l.dropLast.set 0 (hGet l (l.length - 1))
    some (hGet l 0, min_heap_sink_down key l'.length l' 0)
  else if l.length = 1 then
    some (hGet l 0, [])
  else none

/-- Popping every element of a heap, in order (the first argument is fuel;
each pop shrinks the heap by one element, so `l.length` is exact). -/
def popAllAux [Inhabited α] (key : α → Nat) : Nat → List α → List α
  | 0, _ => []
  | fuel + 1, l =>
    match min_heap_pop_min key l with
    | none => []
    | some (m, l') => m :: popAllAux key fuel l'

/-- Repeatedly calling `min_heap_pop_min` until the heap is empty. -/
def min_heap_pop_all [Inhabited α] (key : α → Nat) (l : List α) : List α :=
  popAllAux key l.length l

/-- Pushing a whole list of values with `min_heap_add`, left to right. -/
def min_heap_push_all [Inhabited α] (key : α → Nat) (xs : List α) : List α :=
  xs.foldl (min_heap_add key) []

/-- A call in an arbitrary `push`/`pop_min` call sequence. -/
inductive HeapOp (α : Type) where
  | push : α → HeapOp α
  | pop : HeapOp α

/-- Run a sequence of `push`/`pop_min` calls; `none` models the fatal
"pop from empty heap" exit. -/
def applyHeapOps [Inhabited α] (key : α → Nat) :
    List (HeapOp α) → List α → Option (List α)
  | [], l => some l
  | .push x :: ops, l => applyHeapOps key ops (min_heap_add key l x)
  | .pop :: ops, l =>
    match min_heap_pop_min key l with
    | none => none
    | some (_, l') => applyHeapOps key ops l'

/-- The minimum-heap shape invariant: every stored element other than the
root has priority at least its parent's, the parent of slot `i > 0` being
slot `(i - 1) / 2`. -/
def HeapInv [Inhabited α] (key : α → Nat) (l : List α) : Prop :=
  ∀ i, 0 < i → i < l.length → key (hGet l (parentIdx i)) ≤ key (hGet l i)

/-- The heap invariant "broken at most at `j`, upwards": every slot other
than `j` respects its parent, and the children of `j` are bounded below by
`j`'s parent (so that swapping `j` with its parent cannot break them). -/
def InvUpAt [Inhabited α] (key : α → Nat) (j : Nat) (l : List α) : Prop :=
  (∀ i, 0 < i → i < l.length → i ≠ j →
    key (hGet l (parentIdx i)) ≤ key (hGet l i)) ∧
  (0 < j → ∀ i, 0 < i → i < l.length → parentIdx i = j →
    key (hGet l (parentIdx j)) ≤ key (hGet l i))

/-- The heap invariant "broken at most at `j`, downwards": every slot whose
parent is not `j` respects its parent, and the children of `j` are bounded
below by `j`'s parent. -/
def InvDownAt [Inhabited α] (key : α → Nat) (j : Nat) (l : List α) : Prop :=
  (∀ i, 0 < i → i < l.length → parentIdx i ≠ j →
    key (hGet l (parentIdx i)) ≤ key (hGet l i)) ∧
  (0 < j → ∀ i, 0 < i → i < l.length → parentIdx i = j →
    key (hGet l (parentIdx j)) ≤ key (hGet l i))

/-! ## The astar type (astar.c) -/

/-- `struct astar_data` from astar.c: the bound graph, the open set
(`min_heap` in `NODE` mode) and the path buffer. -/
structure AState where
  gp : Graph
  openset : List Nat
  path : List Nat
deriving DecidableEq

/-- `astar_init` from astar.c. -/
def astar_init (gp : Graph) : AState := ⟨gp, [], []⟩

/-- `astar_get_path` from astar.c. -/
def astar_get_path (st : AState) : List Nat := st.path

/-- `astar_reset` from astar.c: reset the graph, drain the open set, empty
the path buffer. -/
def astar_reset (st : AState) : AState := ⟨graph_reset st.gp, [], []⟩

/-- The open set's priority key: the stored node's current `f` value
(`NODE` heap mode). -/
def nodeKey (gp : Graph) : Nat → Nat := fun i => (gp.node i).f

/-- The `while (current != start)` walk of `astar_reconstruct_path` from
astar.c, prepending each predecessor.  `none` models the non-terminating /
crashing executions (a `came_from` chain that never reaches `start`). -/
def recon_loop (gp : Graph) (start : Nat) :
    Nat → Nat → List Nat → Option (List Nat)
  | 0, _, _ => none
  | fuel + 1, cur, acc =>
    if cur = start then some acc
    else
      match (gp.node cur).cameFrom with
      | none => none
      | some c => recon_loop gp start fuel c (c :: acc)

/-- `astar_reconstruct_path` from astar.c. -/
def astar_reconstruct_path (gp : Graph) (start cur : Nat) :
    Option (List Nat) :=
  recon_loop gp start (numNodes gp + 1) cur [cur]

/-- One neighbour assessment of the `astar_search` inner loop: look up the
edge of `nb` relevant to `cur` (fatal if absent), compute
`next_g = current.g + w` in `uint64_t` arithmetic, and on a strictly better
nonzero-weight path record `came_from`/`g`/`f` and enqueue `nb` if it is
not already in the open set. -/
def relax_one (goal cur : Nat) (acc : Graph × List Nat) (nb : Nat) :
    Except Unit (Graph × List Nat) :=
  let gp := acc.1
  let hp := acc.2
  match node_get_neighbouring_edge gp cur nb with
  | none => .error ()
  | some e =>
    let next_g := ((gp.node cur).g + e.w) % U64
    if e.w ≠ 0 ∧ next_g < (gp.node nb).g then
      let gp1 := gp.setNode nb
        { gp.node nb with
          cameFrom := some cur
          g := next_g
          f := (next_g + astar_h (gp.node nb) (gp.node goal) gp.gstyle) % U64 }
      let hp1 := if min_heap_val_exists hp nb then hp
                 else min_heap_add (nodeKey gp1) hp nb
      .ok (gp1, hp1)
    else .ok (gp, hp)

/-- The whole inner `for` loop of `astar_search`: assess every neighbour of
the popped `current` node in order. -/
def relax_all (goal cur : Nat) (gp : Graph) (hp : List Nat) :
    Except Unit (Graph × List Nat) :=
  (gp.node cur).neighbours.foldlM (relax_one goal cur) (gp, hp)

/-- Result of running the `astar_search` main loop: `done` is a normal
return (goal popped, or open set exhausted), `fatal` is a
`exit(EXIT_FAILURE)` path, `more` means the fuel ran out mid-loop. -/
inductive SearchRes where
  | done : AState → SearchRes
  | fatal : SearchRes
  | more : AState → SearchRes
deriving DecidableEq

/-- The `while (!empty && !path_found)` main loop of `astar_search`. -/
def search_loop (start goal : Nat) : Nat → AState → SearchRes
  | 0, st => .more st
  | fuel + 1, st =>
    match min_heap_pop_min (nodeKey st.gp) st.openset with
    | none => .done st
    | some (cur, hp1) =>
      if cur = goal then
        match astar_reconstruct_path st.gp start cur with
        | none => .fatal
        | some p => .done ⟨st.gp, hp1, p⟩
      else
        match relax_all goal cur st.gp hp1 with
        | .error _ => .fatal
        | .ok (gp2, hp2) => search_loop start goal fuel ⟨gp2, hp2, st.path⟩

/-- `astar_search(asp, start, end)` from astar.c: reset, enqueue `start`,
set `start.g = 0`, then run the main loop. -/
def astar_search (fuel : Nat) (st : AState) (start goal : Nat) : SearchRes :=
  let st1 := astar_reset st
  let hp := min_heap_add (nodeKey st1.gp) [] start
  let gp2 := node_set_g st1.gp start 0
  search_loop start goal fuel ⟨gp2, hp, []⟩

/-- Total traversal cost of a path: the sum over consecutive pairs `a, b`
of the weight of the edge used to move from `a` into `b` (the edge in `b`'s
edge list whose neighbour pointer is `a`). -/
def pathWeight (gp : Graph) : List Nat → Nat
  | a :: b :: rest =>
    (match node_get_neighbouring_edge gp a b with
     | some e => e.w
     | none => 0) + pathWeight gp (b :: rest)
  | _ => 0

/-- Every pair of consecutive path nodes is connected by an edge (in the
direction of travel) whose weight is nonzero. -/
def path_edges_ok (gp : Graph) : List Nat → Bool
  | a :: b :: rest =>
    (match node_get_neighbouring_edge gp a b with
     | some e => e.w != 0
     | none => false) && path_edges_ok gp (b :: rest)
  | _ => true

/-! ## Derived notions used by the specification's properties -/

/-- Iterated `astar_reset`. -/
def astar_reset_iter : Nat → AState → AState
  | 0, st => st
  | k + 1, st => astar_reset (astar_reset_iter k st)

/-- One usable transition of the graph, as `astar_search` expands it: `b` is
in `a`'s neighbour array, and the edge of `b` relevant to `a` exists and has
nonzero weight. -/
def StepsTo (gp : Graph) (a b : Nat) : Prop :=
  b ∈ (gp.node a).neighbours ∧
  ∃ e, node_get_neighbouring_edge gp a b = some e ∧ e.w ≠ 0

/-- Reachability along usable transitions. -/
def Reach (gp : Graph) (a b : Nat) : Prop :=
  Relation.ReflTransGen (StepsTo gp) a b

/-- The number of nodes whose `g` still holds the `INF` sentinel. -/
def countInf (gp : Graph) : Nat :=
  (List.range (numNodes gp)).countP (fun i => decide ((gp.node i).g = INF))

/-- Static well-formedness of a graph state, as established by
`graph_init` and preserved by clean `add_edge`/`remove_edge` calls:
neighbour pointers are valid, every listed neighbour's edge list contains
the edge relevant to the lister (the adjacency invariant the search relies
on), edge weights are `uint8_t` values, and the graph is small enough that
`uint64_t` cost arithmetic cannot wrap. -/
structure WFGraph (gp : Graph) : Prop where
  nbr_valid : ∀ i, i < numNodes gp → ∀ nb ∈ (gp.node i).neighbours,
    nb < numNodes gp
  edge_found : ∀ i, i < numNodes gp → ∀ nb ∈ (gp.node i).neighbours,
    (node_get_neighbouring_edge gp i nb).isSome
  w_small : ∀ i, i < numNodes gp → ∀ e ∈ (gp.node i).edges, e.w ≤ 255
  size_small : 255 * (numNodes gp + 1) < INF

/-- The loop invariant of `astar_search`'s main loop. -/
structure SearchInv (start : Nat) (st : AState) : Prop where
  open_valid : ∀ i ∈ st.openset, i < numNodes st.gp
  open_fin : ∀ i ∈ st.openset, (st.gp.node i).g ≠ INF
  open_nodup : st.openset.Nodup
  start_valid : start < numNodes st.gp
  start_g : (st.gp.node start).g = 0
  start_cf : (st.gp.node start).cameFrom = none
  g_bound : ∀ i, i < numNodes st.gp → (st.gp.node i).g ≠ INF →
    (st.gp.node i).g + 255 * countInf st.gp ≤ 255 * numNodes st.gp
  chain : ∀ n, n < numNodes st.gp → ∀ c, (st.gp.node n).cameFrom = some c →
    c < numNodes st.gp ∧ (st.gp.node n).g ≠ INF ∧
    ∃ e, node_get_neighbouring_edge st.gp c n = some e ∧ e.w ≠ 0 ∧
      (st.gp.node c).g + e.w ≤ (st.gp.node n).g
  discovered : ∀ n, n < numNodes st.gp → n ≠ start →
    (st.gp.node n).g ≠ INF → (st.gp.node n).cameFrom ≠ none
  path_nil : st.path = []

/-- Sum of all `g` values of the graph (the termination measure's main
component: every relaxation strictly decreases some node's `g`). -/
def sumG (gp : Graph) : Nat :=
  ((List.range (numNodes gp)).map (fun i => (gp.node i).g)).sum

/-- Two graphs with the same persistent structure (same node count and,
per node, the same coordinates, neighbour array, edge array and type);
search only mutates the `came_from`/`g`/`f` scratch, so it preserves this. -/
def ShapeEq (gp gp' : Graph) : Prop :=
  numNodes gp' = numNodes gp ∧ gp'.gstyle = gp.gstyle ∧
  ∀ j, (gp'.node j).neighbours = (gp.node j).neighbours ∧
    (gp'.node j).edges = (gp.node j).edges ∧
    (gp'.node j).x = (gp.node j).x ∧ (gp'.node j).y = (gp.node j).y ∧
    (gp'.node j).z = (gp.node j).z ∧ (gp'.node j).typ = (gp.node j).typ

/-- Executable check of `WFGraph` (used to discharge the hypothesis on
concrete graphs). -/
def wfGraphB (gp : Graph) : Bool :=
  ((List.range (numNodes gp)).all fun i =>
    ((gp.node i).neighbours.all fun nb =>
      decide (nb < numNodes gp) &&
      (node_get_neighbouring_edge gp i nb).isSome) &&
    ((gp.node i).edges.all fun e => decide (e.w ≤ 255))) &&
  decide (255 * (numNodes gp + 1) < INF)

/-- The termination measure of the search main loop. -/
def loopMeasure (st : AState) : Nat :=
  sumG st.gp * (numNodes st.gp + 1) + st.openset.length

/-! ## Concrete instances referenced by the claims -/

/-- The fully connected 3×3×3 Manhattan graph with uniform edge weight 1
(claim C1). -/
def c1Graph : Graph := graph_init 3 3 3 .MANHATTAN

/-- The observable outcome of the claim-C1 search: node count of the
returned path, its first and last nodes, and its total traversal cost. -/
def c1Outcome : Option (Nat × Option Nat × Option Nat × Nat) :=
  match astar_search 100 (astar_init c1Graph) (coordId c1Graph 0 0 0)
      (coordId c1Graph 2 2 2) with
  | .done st =>
    some (st.path.length, st.path.head?, st.path.getLast?,
      pathWeight st.gp st.path)
  | _ => none

/-- A graph state reached from `graph_init` through the public edge API:
on the 1×1×10 Manhattan line, remove the edge 8→9 (node 9 is the last
neighbour of node 8, the clean removal case), then add edges 8→0 (weight
3), 0→9 (weight 2), 3→9 (weight 17) and 8→1 (weight 5). -/
def c5Setup : Except Unit Graph := do
  let g1 ← graph_remove_edge (graph_init 1 1 10 .MANHATTAN) 8 9
  return graph_add_edge
    (graph_add_edge (graph_add_edge (graph_add_edge g1 8 0 3) 0 9 2) 3 9 17)
    8 1 5

/-- The observable outcome of searching 4 → 9 on `c5Setup`: the returned
path, whether its consecutive edges are usable, its total traversal cost,
and the goal node's final `g`. -/
def c5Outcome : Option (List Nat × Bool × Nat × Nat) :=
  match c5Setup with
  | .error _ => none
  | .ok gp =>
    match astar_search 100 (astar_init gp) 4 9 with
    | .done st =>
      some (st.path, path_edges_ok st.gp st.path, pathWeight st.gp st.path,
        (st.gp.node 9).g)
    | _ => none

/-- A small line graph used to instantiate the reset-invariance theorem. -/
def c6Graph : Graph := graph_init 1 1 3 .MANHATTAN

/-- An astar instance over `c6Graph` carrying stale search state: modified
`g` values, a non-empty open set and a non-empty path buffer. -/
def c6State : AState :=
  ⟨node_set_g (node_set_g c6Graph 0 0) 2 7, [2, 0], [0, 1, 2]⟩

/-- The final state of a small concrete search (used to instantiate the
general path-cost theorem). -/
def c5aW : AState :=
  match astar_search 50 (astar_init (graph_init 1 1 2 .MANHATTAN)) 0 1 with
  | .done st => st
  | _ => astar_init (graph_init 1 1 2 .MANHATTAN)

/-- The two graphs of claim C3. -/
def c3Manh : Graph := graph_init 3 3 3 .MANHATTAN

/-- The 3×3×3 diagonal-style graph of claim C3. -/
def c3Diag : Graph := graph_init 3 3 3 .DIAGONAL

/-- The 1×1×3 Manhattan line (claim C9's disconnection scenario). -/
def c9Base : Graph := graph_init 1 1 3 .MANHATTAN

/-- `c9Base` after `graph_remove_edge(node 1, node 2)`: node 2 becomes
unreachable from node 0 (the removal is the clean last-index case, so the
call succeeds). -/
def c9G : Graph :=
  match graph_remove_edge c9Base 1 2 with
  | .ok g => g
  | .error _ => c9Base

/-! ## Basic lemmas about the embedding -/

theorem hGet_eq_getElem [Inhabited α] (l : List α) (i : Nat)
    (h : i < l.length) : hGet l i = l[i] := by
  rw [hGet, List.getD_eq_getElem?_getD, List.getElem?_eq_getElem h]
  rfl

theorem hGet_mem [Inhabited α] (l : List α) (i : Nat) (h : i < l.length) :
    hGet l i ∈ l := by
  rw [hGet_eq_getElem l i h]
  exact List.getElem_mem h

theorem numNodes_setNode (gp : Graph) (i : Nat) (n : NodeData) :
    numNodes (gp.setNode i n) = numNodes gp := by
  simp [numNodes, Graph.setNode]

theorem node_setNode_self (gp : Graph) (i : Nat) (n : NodeData)
    (h : i < numNodes gp) : (gp.setNode i n).node i = n := by
  simp only [Graph.node, Graph.setNode, List.getD_eq_getElem?_getD]
  rw [List.getElem?_set_self', List.getElem?_eq_getElem h]
  rfl

theorem node_setNode_ne (gp : Graph) (i j : Nat) (n : NodeData)
    (h : j ≠ i) : (gp.setNode j n).node i = gp.node i := by
  simp only [Graph.node, Graph.setNode, List.getD_eq_getElem?_getD]
  rw [List.getElem?_set_ne h]

theorem setNode_gstyle (gp : Graph) (i : Nat) (n : NodeData) :
    (gp.setNode i n).gstyle = gp.gstyle := rfl

theorem list_set_self (l : List α) (i : Nat) (h : i < l.length) :
    l.set i l[i] = l := by
  apply List.ext_getElem
  · simp
  · intro n h1 h2
    simp only [List.getElem_set]
    split
    · next he => subst he; rfl
    · rfl

/-- `graph_reset` forgets any node update that only changes the search
scratch (`came_from`, `g`, `f`). -/
theorem graph_reset_setNode (gp : Graph) (i : Nat) (n : NodeData)
    (h : node_reset n = node_reset (gp.node i)) :
    graph_reset (gp.setNode i n) = graph_reset gp := by
  simp only [graph_reset, Graph.setNode, List.map_set, h]
  congr 1
  by_cases hi : i < gp.nodes.length
  · have hilen : i < (gp.nodes.map node_reset).length := by simpa
    have hd : node_reset (gp.node i) = (gp.nodes.map node_reset)[i] := by
      simp only [Graph.node, List.getElem_map]
      congr 1
      rw [List.getD_eq_getElem?_getD, List.getElem?_eq_getElem hi]
      rfl
    rw [hd, list_set_self]
  · rw [List.set_eq_of_length_le]
    simpa using Nat.le_of_not_lt hi

theorem graph_reset_node_set_g (gp : Graph) (i v : Nat) :
    graph_reset (node_set_g gp i v) = graph_reset gp :=
  graph_reset_setNode gp i _ rfl

/-! ## C3: graph adjacency counts on the 3×3×3 grids -/

/-- C3: in the 3×3×3 graph built by `graph_init`: with Manhattan style the
centre node (1,1,1) has exactly 6 neighbours and the corner node (0,0,0)
exactly 3; with Diagonal style the centre node has exactly 26 neighbours
and the corner node exactly 7. -/
theorem graph_init_3x3x3_neighbour_counts :
    ((c3Manh.node (coordId c3Manh 1 1 1)).neighbours.length = 6 ∧
      (c3Manh.node (coordId c3Manh 0 0 0)).neighbours.length = 3) ∧
    ((c3Diag.node (coordId c3Diag 1 1 1)).neighbours.length = 26 ∧
      (c3Diag.node (coordId c3Diag 0 0 0)).neighbours.length = 7) := by
  constructor <;> constructor <;> rfl

/-! ## C1: end-to-end search on the 3×3×3 Manhattan grid -/

/-- C1: on the fully connected 3×3×3 Manhattan graph with uniform edge
weight 1, `astar_search` from the node at (0,0,0) to the node at (2,2,2)
terminates with a path of exactly 7 nodes whose first node is (0,0,0),
whose last node is (2,2,2), and whose total traversal cost is 6. -/
theorem astar_search_3x3x3_end_to_end :
    c1Outcome = some (7, some (coordId c1Graph 0 0 0),
      some (coordId c1Graph 2 2 2), 6) := by
  rfl

/-! ## C10: the adjacency invariant versus `node_remove_edge` -/

/-- C10 (failing input): on the 3×3×1 Manhattan graph built by
`graph_init`, `graph_remove_edge` from the node at (0,1,0) to the node at
(0,2,0) — a neighbour in the middle of the remover's neighbour array — hits
the out-of-bounds `array_get_data` fatal exit inside
`node_remove_neighbour` (the loop keeps using the pre-removal size), so the
edge API cannot maintain the claimed adjacency invariant. -/
theorem graph_remove_edge_middle_neighbour_fatal :
    graph_remove_edge (graph_init 3 3 1 .MANHATTAN)
      (coordId (graph_init 3 3 1 .MANHATTAN) 0 1 0)
      (coordId (graph_init 3 3 1 .MANHATTAN) 0 2 0) = .error () := by
  rfl

/-! ## C5 (counterexample): traversal cost needn't equal the goal's `g` -/

/-- C5 (counterexample): on the API-reachable graph state `c5Setup`, the
search 4 → 9 returns a non-empty path whose total traversal cost (6)
differs from the final `g` recorded on the goal node (9): node 0's `g` was
improved after the goal had been relaxed through it, and the goal was
popped before the improvement propagated. -/
theorem astar_search_path_cost_mismatch :
    ∃ p ok w gg, c5Outcome = some (p, ok, w, gg) ∧ p ≠ [] ∧ w ≠ gg :=
  ⟨[4, 3, 2, 1, 0, 9], true, 6, 9, by rfl, by decide, by decide⟩

/-! ## C4: the heuristic function -/

/-- C4: for all nodes, `astar_h` with Manhattan style is the L1 distance
`|Δx| + |Δy| + |Δz|`, and with Diagonal style it is
`(dx + dy + dz) - 2 * min dx (min dy dz)` — i.e. the code's
`(dx+dy+dz) + (1-3)*min` expression equals the claimed closed form for all
coordinate values. -/
theorem astar_h_formulas (a b : NodeData) :
    astar_h a b .MANHATTAN =
      ((a.x : Int) - (b.x : Int)).natAbs + ((a.y : Int) - (b.y : Int)).natAbs +
        ((a.z : Int) - (b.z : Int)).natAbs ∧
    astar_h a b .DIAGONAL =
      (((a.x : Int) - (b.x : Int)).natAbs + ((a.y : Int) - (b.y : Int)).natAbs +
        ((a.z : Int) - (b.z : Int)).natAbs) -
      2 * min (((a.x : Int) - (b.x : Int)).natAbs)
          (min (((a.y : Int) - (b.y : Int)).natAbs)
            (((a.z : Int) - (b.z : Int)).natAbs)) := by
  constructor
  · rfl
  · simp only [astar_h]
    generalize ((a.x : Int) - (b.x : Int)).natAbs = d1
    generalize ((a.y : Int) - (b.y : Int)).natAbs = d2
    generalize ((a.z : Int) - (b.z : Int)).natAbs = d3
    simp only [Nat.min_def]
    split_ifs <;> omega

/-! ## C8: duplicate `add_edge` is a benign no-op -/

theorem node_setNode (gp : Graph) (i j : Nat) (n : NodeData) :
    (gp.setNode i n).node j =
      if i = j ∧ j < numNodes gp then n else gp.node j := by
  by_cases h : i = j
  · subst h
    by_cases hl : i < numNodes gp
    · simp [node_setNode_self gp i n hl, hl]
    · simp only [hl, and_false, if_false]
      simp only [Graph.node, Graph.setNode, List.getD_eq_getElem?_getD]
      rw [List.set_eq_of_length_le (Nat.le_of_not_lt hl)]
  · simp [node_setNode_ne gp j i n h, h]

theorem node_add_neighbour_edges (gp : Graph) (i nb j : Nat) :
    ((node_add_neighbour gp i nb).node j).edges = (gp.node j).edges := by
  rw [node_add_neighbour, node_setNode]
  split
  · next h => rw [h.1]
  · rfl

/-- C8: adding an edge for a pair that already has one is a non-fatal
no-op: from a state with no edge for the pair, after `add_edge(a,b,w)` and
then `add_edge(a,b,w')` exactly one edge for the pair exists, it carries
the first call's weight `w`, and the second call leaves the graph
unchanged. -/
theorem node_add_edge_duplicate_noop (gp : Graph) (a b w w' : Nat)
    (hb : b < numNodes gp)
    (h0 : (gp.node b).edges.find? (fun e => e.nbr == a) = none) :
    node_add_edge (node_add_edge gp a b w) a b w' = node_add_edge gp a b w ∧
    ((node_add_edge gp a b w).node b).edges.filter (fun e => e.nbr == a) =
      [⟨a, w⟩] ∧
    ((node_add_edge (node_add_edge gp a b w) a b w').node b).edges.filter
      (fun e => e.nbr == a) = [⟨a, w⟩] := by
  have hfilter0 : (gp.node b).edges.filter (fun e => e.nbr == a) = [] := by
    rw [List.filter_eq_nil_iff]
    intro e he
    exact (List.find?_eq_none.mp h0) e he
  have h1 : node_add_edge gp a b w =
      node_add_neighbour
        (gp.setNode b
          { gp.node b with edges := (gp.node b).edges ++ [⟨a, w⟩] }) a b := by
    rw [node_add_edge, h0]
    rfl
  have hedges : ((node_add_edge gp a b w).node b).edges =
      (gp.node b).edges ++ [⟨a, w⟩] := by
    rw [h1, node_add_neighbour_edges, node_setNode]
    simp [hb]
  have hfind : ((node_add_edge gp a b w).node b).edges.find?
      (fun e => e.nbr == a) = some ⟨a, w⟩ := by
    rw [hedges, List.find?_append, h0]
    simp
  have hnoop : node_add_edge (node_add_edge gp a b w) a b w' =
      node_add_edge gp a b w := by
    rw [node_add_edge, hfind]
    simp
  refine ⟨hnoop, ?_, ?_⟩
  · rw [hedges, List.filter_append, hfilter0]
    simp
  · rw [hnoop, hedges, List.filter_append, hfilter0]
    simp

/-- Witness for `node_add_edge_duplicate_noop`: nodes 0 and 2 of the 1×1×3
Manhattan line are not adjacent, so no edge for the pair exists at
`graph_init` time. -/
theorem node_add_edge_duplicate_noop_witness :
    node_add_edge (node_add_edge (graph_init 1 1 3 .MANHATTAN) 0 2 7) 0 2 9 =
      node_add_edge (graph_init 1 1 3 .MANHATTAN) 0 2 7 ∧
    ((node_add_edge (graph_init 1 1 3 .MANHATTAN) 0 2 7).node 2).edges.filter
      (fun e => e.nbr == 0) = [⟨0, 7⟩] ∧
    ((node_add_edge (node_add_edge (graph_init 1 1 3 .MANHATTAN) 0 2 7)
        0 2 9).node 2).edges.filter (fun e => e.nbr == 0) = [⟨0, 7⟩] :=
  node_add_edge_duplicate_noop (graph_init 1 1 3 .MANHATTAN) 0 2 7 9
    (by decide) (by rfl)

/-! ## C6: reset is idempotent and searches are reset-invariant -/

theorem graph_reset_idem (gp : Graph) :
    graph_reset (graph_reset gp) = graph_reset gp := by
  simp only [graph_reset, List.map_map]
  congr 1

theorem astar_reset_reset (st : AState) :
    astar_reset (astar_reset st) = astar_reset st := by
  simp [astar_reset, graph_reset_idem]

theorem astar_reset_of_iter (k : Nat) (st : AState) :
    astar_reset (astar_reset_iter k st) = astar_reset st := by
  induction k with
  | zero => rfl
  | succ k ih => rw [astar_reset_iter, astar_reset_reset, ih]

/-- C6: running `search(start, goal)` on an AStar instance after any number
of `reset()` calls gives exactly the same result (same path, same costs) as
running it on a freshly constructed AStar bound to an identically built
graph — stale `g`/`f`/`came_from`/open-set/path state has no influence,
because `astar_search` begins by resetting. -/
theorem astar_search_reset_invariance (st : AState) (g0 : Graph)
    (k fuel start goal : Nat) (h : graph_reset st.gp = graph_reset g0) :
    astar_search fuel (astar_reset_iter k st) start goal =
      astar_search fuel (astar_init g0) start goal := by
  unfold astar_search
  rw [astar_reset_of_iter]
  simp only [astar_reset, astar_init, h]

/-- Witness for `astar_search_reset_invariance`: a searched, stale instance
on the 1×1×3 line, reset three times, searches exactly like a fresh one. -/
theorem astar_search_reset_invariance_witness :
    astar_search 50 (astar_reset_iter 3 c6State) 0 2 =
      astar_search 50 (astar_init c6Graph) 0 2 :=
  astar_search_reset_invariance c6State c6Graph 3 50 0 2
    (by rw [show c6State.gp = node_set_g (node_set_g c6Graph 0 0) 2 7 from rfl,
          graph_reset_node_set_g, graph_reset_node_set_g])

/-! ## Heap lemmas (min_heap.c): shape and ordering -/

theorem parentIdx_lt (i : Nat) (h : 0 < i) : parentIdx i < i := by
  simp only [parentIdx]
  omega

theorem parentIdx_le (i : Nat) : parentIdx i ≤ i := by
  simp only [parentIdx]
  omega

theorem parentIdx_eq_iff (i j : Nat) (h : 0 < i) :
    parentIdx i = j ↔ i = 2 * j + 1 ∨ i = 2 * j + 2 := by
  simp only [parentIdx]
  omega

theorem getElem?_set_form (l : List α) (i j : Nat) (a : α) :
    (l.set i a)[j]? =
      if i = j then (if i < l.length then some a else none) else l[j]? :=
  List.getElem?_set

theorem hGet_out [Inhabited α] (l : List α) (i : Nat) (h : l.length ≤ i) :
    hGet l i = default := by
  rw [hGet, List.getD_eq_getElem?_getD, List.getElem?_eq_none h]
  rfl

theorem length_swapAt [Inhabited α] (l : List α) (i j : Nat) :
    (swapAt l i j).length = l.length := by
  simp [swapAt]

theorem hGet_swapAt [Inhabited α] (l : List α) (i j k : Nat)
    (hi : i < l.length) (hj : j < l.length) :
    hGet (swapAt l i j) k =
      if k = j then hGet l i else if k = i then hGet l j else hGet l k := by
  simp only [swapAt, hGet, List.getD_eq_getElem?_getD]
  rw [getElem?_set_form, getElem?_set_form]
  by_cases hkj : k = j
  · subst hkj
    rw [if_pos rfl, if_pos rfl, if_pos (by simpa using hj)]
    rfl
  · have hjk : ¬ j = k := fun h => hkj h.symm
    rw [if_neg hjk, if_neg hkj]
    by_cases hki : k = i
    · subst hki
      rw [if_pos rfl, if_pos rfl, if_pos hi]
      rfl
    · have hik : ¬ i = k := fun h => hki h.symm
      rw [if_neg hik, if_neg hki]

theorem getD_cons_set_perm [Inhabited α] (a : α) :
    ∀ (s : List α) (n : Nat), n < s.length →
      (s.getD n default :: s.set n a).Perm (a :: s) := by
  intro s
  induction s with
  | nil => intro n hn; simp at hn
  | cons c u ihs =>
    intro n hn
    match n with
    | 0 => exact List.Perm.swap a c u
    | n + 1 =>
      have hn' : n < u.length := by simpa using hn
      simp only [List.getD_cons_succ, List.set_cons_succ]
      exact ((List.Perm.swap c (u.getD n default) (u.set n a)).trans
        (List.Perm.cons c (ihs n hn'))).trans (List.Perm.swap a c u)

theorem swapAt_perm [Inhabited α] (l : List α) (i j : Nat)
    (hi : i < l.length) (hj : j < l.length) : (swapAt l i j).Perm l := by
  induction l generalizing i j with
  | nil => simp at hi
  | cons a t ih =>
    match i, j with
    | 0, 0 => simp [swapAt, hGet]
    | 0, m + 1 =>
      have hm : m < t.length := by simpa using hj
      simp only [swapAt, hGet, List.getD_cons_succ, List.getD_cons_zero,
        List.set_cons_zero, List.set_cons_succ]
      exact getD_cons_set_perm a t m hm
    | m + 1, 0 =>
      have hm : m < t.length := by simpa using hi
      simp only [swapAt, hGet, List.getD_cons_succ, List.getD_cons_zero,
        List.set_cons_succ, List.set_cons_zero]
      exact getD_cons_set_perm a t m hm
    | m + 1, k + 1 =>
      have hm : m < t.length := by simpa using hi
      have hk : k < t.length := by simpa using hj
      simp only [swapAt, hGet, List.getD_cons_succ, List.set_cons_succ]
      exact List.Perm.cons a (ih m k hm hk)

theorem hGet_append [Inhabited α] (l l' : List α) (i : Nat)
    (h : i < l.length) : hGet (l ++ l') i = hGet l i := by
  rw [hGet, hGet, List.getD_append _ _ _ _ h]

theorem length_min_heap_float_up [Inhabited α] (key : α → Nat) :
    ∀ fuel (l : List α) ci,
      (min_heap_float_up key fuel l ci).length = l.length := by
  intro fuel
  induction fuel with
  | zero => intro l ci; rfl
  | succ fuel ih =>
    intro l ci
    simp only [min_heap_float_up]
    split
    · split
      · rw [ih, length_swapAt]
      · rfl
    · rfl

theorem min_heap_float_up_perm [Inhabited α] (key : α → Nat) :
    ∀ fuel (l : List α) ci, ci < l.length →
      (min_heap_float_up key fuel l ci).Perm l := by
  intro fuel
  induction fuel with
  | zero => intro l ci _; exact List.Perm.refl l
  | succ fuel ih =>
    intro l ci hci
    simp only [min_heap_float_up]
    split
    · next hci0 =>
      split
      · have hp : parentIdx ci < l.length :=
          Nat.lt_of_lt_of_le (parentIdx_lt ci hci0) (Nat.le_of_lt hci)
        exact (ih (swapAt l ci (parentIdx ci)) (parentIdx ci)
          (by rw [length_swapAt]; exact hp)).trans
          (swapAt_perm l ci (parentIdx ci) hci hp)
      · exact List.Perm.refl l
    · exact List.Perm.refl l

theorem min_heap_float_up_inv [Inhabited α] (key : α → Nat) :
    ∀ fuel (l : List α) j, j ≤ fuel → j < l.length → InvUpAt key j l →
      HeapInv key (min_heap_float_up key fuel l j) := by
  intro fuel
  induction fuel with
  | zero =>
    intro l j hf hj hinv
    have hj0 : j = 0 := Nat.le_zero.mp hf
    subst hj0
    intro i hi hil
    exact hinv.1 i hi hil (by omega)
  | succ fuel ih =>
    intro l j hf hj hinv
    simp only [min_heap_float_up]
    by_cases hj0 : 0 < j
    case neg =>
      rw [if_neg hj0]
      intro i hi hil
      exact hinv.1 i hi hil (by omega)
    rw [if_pos hj0]
    have hplt : parentIdx j < j := parentIdx_lt j hj0
    have hp : parentIdx j < l.length := Nat.lt_trans hplt hj
    by_cases hswap : key (hGet l j) < key (hGet l (parentIdx j))
    case neg =>
      rw [if_neg hswap]
      intro i hi hil
      by_cases hij : i = j
      · subst hij
        exact Nat.le_of_not_lt hswap
      · exact hinv.1 i hi hil hij
    rw [if_pos hswap]
    apply ih (swapAt l j (parentIdx j)) (parentIdx j) (by omega)
      (by rw [length_swapAt]; exact hp)
    constructor
    · intro i hi hil hip
      rw [length_swapAt] at hil
      rw [hGet_swapAt l j (parentIdx j) i hj hp,
        hGet_swapAt l j (parentIdx j) (parentIdx i) hj hp]
      by_cases hij : i = j
      · subst hij
        rw [if_neg hip, if_pos rfl, if_pos rfl]
        exact Nat.le_of_lt hswap
      · rw [if_neg hip, if_neg hij]
        by_cases hpip : parentIdx i = parentIdx j
        · rw [if_pos hpip]
          exact Nat.le_of_lt (Nat.lt_of_lt_of_le hswap
            (hpip ▸ hinv.1 i hi hil hij))
        · rw [if_neg hpip]
          by_cases hpij : parentIdx i = j
          · rw [if_pos hpij]
            exact hinv.2 hj0 i hi hil hpij
          · rw [if_neg hpij]
            exact hinv.1 i hi hil hij
    · intro hpp0 i hi hil hpar
      rw [length_swapAt] at hil
      have hpplt : parentIdx (parentIdx j) < parentIdx j :=
        parentIdx_lt (parentIdx j) hpp0
      have hilt : parentIdx i < i := parentIdx_lt i hi
      rw [hGet_swapAt l j (parentIdx j) (parentIdx (parentIdx j)) hj hp,
        if_neg (by omega : parentIdx (parentIdx j) ≠ parentIdx j),
        if_neg (by omega : parentIdx (parentIdx j) ≠ j),
        hGet_swapAt l j (parentIdx j) i hj hp,
        if_neg (by omega : i ≠ parentIdx j)]
      have hbase : key (hGet l (parentIdx (parentIdx j))) ≤
          key (hGet l (parentIdx j)) :=
        hinv.1 (parentIdx j) hpp0 hp (by omega)
      by_cases hij : i = j
      · rw [if_pos hij]
        exact hbase
      · rw [if_neg hij]
        have h2 := hinv.1 i hi hil hij
        rw [hpar] at h2
        exact Nat.le_trans hbase h2

theorem length_min_heap_add [Inhabited α] (key : α → Nat) (l : List α)
    (x : α) : (min_heap_add key l x).length = l.length + 1 := by
  rw [min_heap_add, length_min_heap_float_up]
  simp

theorem min_heap_add_perm [Inhabited α] (key : α → Nat) (l : List α)
    (x : α) : (min_heap_add key l x).Perm (x :: l) := by
  rw [min_heap_add]
  exact (min_heap_float_up_perm key l.length (l ++ [x]) l.length
    (by simp)).trans (List.perm_append_singleton x l)

theorem min_heap_add_inv [Inhabited α] (key : α → Nat) (l : List α) (x : α)
    (h : HeapInv key l) : HeapInv key (min_heap_add key l x) := by
  apply min_heap_float_up_inv key l.length (l ++ [x]) l.length le_rfl
    (by simp)
  constructor
  · intro i hi hil hij
    simp only [List.length_append, List.length_cons, List.length_nil] at hil
    have hi_lt : i < l.length := by omega
    have hp_lt : parentIdx i < l.length :=
      Nat.lt_trans (parentIdx_lt i hi) hi_lt
    rw [hGet_append l [x] i hi_lt, hGet_append l [x] (parentIdx i) hp_lt]
    exact h i hi hi_lt
  · intro hlen0 i hi hil hpar
    exfalso
    have h1 : parentIdx i < i := parentIdx_lt i hi
    simp only [List.length_append, List.length_cons, List.length_nil] at hil
    omega

theorem min_heap_sink_down_step [Inhabited α] (key : α → Nat) (fuel : Nat)
    (l : List α) (pi : Nat) :
    (min_heap_sink_down key (fuel + 1) l pi = l ∧
      (∀ j, (j = 2 * pi + 1 ∨ j = 2 * pi + 2) → j < l.length →
        key (hGet l pi) ≤ key (hGet l j))) ∨
    (∃ mi, (mi = 2 * pi + 1 ∨ mi = 2 * pi + 2) ∧ mi < l.length ∧
      key (hGet l mi) < key (hGet l pi) ∧
      (∀ j, (j = 2 * pi + 1 ∨ j = 2 * pi + 2) → j < l.length →
        key (hGet l mi) ≤ key (hGet l j)) ∧
      min_heap_sink_down key (fuel + 1) l pi =
        min_heap_sink_down key fuel (swapAt l mi pi) mi) := by
  simp only [min_heap_sink_down]
  by_cases h2 : 2 * pi + 1 < l.length ∧ 2 * pi + 2 < l.length
  · rw [if_pos h2]
    by_cases hc : key (hGet l (2 * pi + 1)) < key (hGet l (2 * pi + 2))
    · rw [if_pos hc]
      by_cases hs : key (hGet l (2 * pi + 1)) < key (hGet l pi)
      · rw [if_pos ⟨by omega, hs⟩]
        right
        refine ⟨2 * pi + 1, Or.inl rfl, h2.1, hs, ?_, rfl⟩
        rintro j (rfl | rfl) hj
        · exact le_rfl
        · exact Nat.le_of_lt hc
      · rw [if_neg (fun hand => hs hand.2)]
        left
        refine ⟨rfl, ?_⟩
        rintro j (rfl | rfl) hj
        · exact Nat.le_of_not_lt hs
        · exact Nat.le_trans (Nat.le_of_not_lt hs) (Nat.le_of_lt hc)
    · rw [if_neg hc]
      by_cases hs : key (hGet l (2 * pi + 2)) < key (hGet l pi)
      · rw [if_pos ⟨by omega, hs⟩]
        right
        refine ⟨2 * pi + 2, Or.inr rfl, h2.2, hs, ?_, rfl⟩
        rintro j (rfl | rfl) hj
        · exact Nat.le_of_not_lt hc
        · exact le_rfl
      · rw [if_neg (fun hand => hs hand.2)]
        left
        refine ⟨rfl, ?_⟩
        rintro j (rfl | rfl) hj
        · exact Nat.le_trans (Nat.le_of_not_lt hs) (Nat.le_of_not_lt hc)
        · exact Nat.le_of_not_lt hs
  · rw [if_neg h2]
    by_cases h1 : 2 * pi + 1 < l.length
    · rw [if_pos h1]
      by_cases hs : key (hGet l (2 * pi + 1)) < key (hGet l pi)
      · rw [if_pos ⟨by omega, hs⟩]
        right
        refine ⟨2 * pi + 1, Or.inl rfl, h1, hs, ?_, rfl⟩
        rintro j (rfl | rfl) hj
        · exact le_rfl
        · exact absurd ⟨h1, hj⟩ h2
      · rw [if_neg (fun hand => hs hand.2)]
        left
        refine ⟨rfl, ?_⟩
        rintro j (rfl | rfl) hj
        · exact Nat.le_of_not_lt hs
        · exact absurd ⟨h1, hj⟩ h2
    · rw [if_neg h1]
      rw [if_neg (fun hand => hand.1 rfl)]
      left
      refine ⟨rfl, ?_⟩
      rintro j (rfl | rfl) hj
      · exact absurd hj h1
      · exact absurd (by omega : 2 * pi + 1 < l.length) h1

theorem length_min_heap_sink_down [Inhabited α] (key : α → Nat) :
    ∀ fuel (l : List α) pi,
      (min_heap_sink_down key fuel l pi).length = l.length := by
  intro fuel
  induction fuel with
  | zero => intro l pi; rfl
  | succ fuel ih =>
    intro l pi
    rcases min_heap_sink_down_step key fuel l pi with ⟨h, _⟩ |
      ⟨mi, _, _, _, _, heq⟩
    · rw [h]
    · rw [heq, ih, length_swapAt]

theorem min_heap_sink_down_perm [Inhabited α] (key : α → Nat) :
    ∀ fuel (l : List α) pi, (min_heap_sink_down key fuel l pi).Perm l := by
  intro fuel
  induction fuel with
  | zero => intro l pi; exact List.Perm.refl l
  | succ fuel ih =>
    intro l pi
    rcases min_heap_sink_down_step key fuel l pi with ⟨h, _⟩ |
      ⟨mi, hmic, hmil, _, _, heq⟩
    · rw [h]
    · rw [heq]
      have hpil : pi < l.length := by omega
      exact (ih (swapAt l mi pi) mi).trans (swapAt_perm l mi pi hmil hpil)

theorem min_heap_sink_down_inv [Inhabited α] (key : α → Nat) :
    ∀ fuel (l : List α) j, l.length ≤ fuel + j → InvDownAt key j l →
      HeapInv key (min_heap_sink_down key fuel l j) := by
  intro fuel
  induction fuel with
  | zero =>
    intro l j hf hinv
    simp only [min_heap_sink_down]
    intro i hi hil
    refine hinv.1 i hi hil ?_
    have h1 := parentIdx_lt i hi
    omega
  | succ fuel ih =>
    intro l j hf hinv
    rcases min_heap_sink_down_step key fuel l j with ⟨heq, hstop⟩ |
      ⟨mi, hmic, hmil, hlt, hminc, heq⟩
    · rw [heq]
      intro i hi hil
      by_cases hpij : parentIdx i = j
      · exact hpij ▸ hstop i ((parentIdx_eq_iff i j hi).mp hpij) hil
      · exact hinv.1 i hi hil hpij
    · rw [heq]
      have hjl : j < l.length := by omega
      have hpmi : parentIdx mi = j := by
        rw [parentIdx_eq_iff mi j (by omega)]
        exact hmic
      apply ih (swapAt l mi j) mi (by rw [length_swapAt]; omega)
      constructor
      · intro i hi hil hpimi
        rw [length_swapAt] at hil
        have hilt := parentIdx_lt i hi
        by_cases hij : i = j
        · subst hij
          rw [hGet_swapAt l mi i i hmil hjl, if_pos rfl]
          rw [hGet_swapAt l mi i (parentIdx i) hmil hjl,
            if_neg (by omega : parentIdx i ≠ i), if_neg hpimi]
          exact hinv.2 hi mi (by omega) hmil hpmi
        · by_cases himi : i = mi
          · subst himi
            rw [hGet_swapAt l i j i hmil hjl, if_neg hij, if_pos rfl]
            rw [hGet_swapAt l i j (parentIdx i) hmil hjl, hpmi]
            rw [if_pos rfl]
            exact Nat.le_of_lt hlt
          · rw [hGet_swapAt l mi j i hmil hjl, if_neg hij, if_neg himi]
            by_cases hpij : parentIdx i = j
            · rw [hGet_swapAt l mi j (parentIdx i) hmil hjl, if_pos hpij]
              exact hminc i ((parentIdx_eq_iff i j hi).mp hpij) hil
            · rw [hGet_swapAt l mi j (parentIdx i) hmil hjl,
                if_neg hpij, if_neg hpimi]
              exact hinv.1 i hi hil hpij
      · intro hmi0 i hi hil hpimi
        rw [length_swapAt] at hil
        have h1 : parentIdx i < i := parentIdx_lt i hi
        have himi : i ≠ mi := by omega
        have hij2 : i ≠ j := by omega
        rw [hGet_swapAt l mi j i hmil hjl, if_neg hij2, if_neg himi]
        rw [hGet_swapAt l mi j (parentIdx mi) hmil hjl, hpmi, if_pos rfl]
        have h2 := hinv.1 i hi hil (by omega : parentIdx i ≠ j)
        rw [hpimi] at h2
        exact h2

theorem hGet_popbody [Inhabited α] (l : List α) (x : α) (k : Nat)
    (h0 : 0 < k) (h1 : k < l.length - 1) :
    hGet (l.dropLast.set 0 x) k = hGet l k := by
  rw [hGet, hGet, List.getD_eq_getElem?_getD, List.getD_eq_getElem?_getD,
    getElem?_set_form, if_neg (by omega : ¬ (0 : Nat) = k),
    List.getElem?_dropLast, if_pos h1]

theorem getLast_cons_perm [Inhabited α] (t : List α) (ht : t ≠ []) :
    t.Perm (hGet t (t.length - 1) :: t.dropLast) := by
  have hlen : t.length - 1 < t.length := by
    have := List.length_pos.mpr ht
    omega
  rw [hGet_eq_getElem t _ hlen, ← List.getLast_eq_getElem t ht]
  conv_lhs => rw [← List.dropLast_append_getLast ht]
  exact List.perm_append_singleton _ _

theorem pop_body_perm [Inhabited α] (l : List α) (h : 1 < l.length) :
    l.Perm (hGet l 0 :: l.dropLast.set 0 (hGet l (l.length - 1))) := by
  match l, h with
  | a :: b :: u, _ =>
    have ht : (b :: u : List α) ≠ [] := by simp
    have h2 : (a :: b :: u).dropLast = a :: (b :: u).dropLast := rfl
    have h3 : hGet (a :: b :: u) ((a :: b :: u).length - 1) =
        hGet (b :: u) ((b :: u).length - 1) := by
      simp [hGet]
    rw [h2, h3, List.set_cons_zero]
    exact List.Perm.cons a (getLast_cons_perm (b :: u) ht)

theorem min_heap_pop_min_eq [Inhabited α] (key : α → Nat) (l : List α)
    (m : α) (l' : List α) (h : min_heap_pop_min key l = some (m, l')) :
    m = hGet l 0 ∧ l.Perm (m :: l') ∧ l'.length + 1 = l.length := by
  by_cases h1 : 1 < l.length
  · rw [min_heap_pop_min, if_pos h1] at h
    simp only [Option.some.injEq, Prod.mk.injEq] at h
    obtain ⟨hm, hl'⟩ := h
    subst hm
    subst hl'
    refine ⟨rfl, ?_, ?_⟩
    · exact (pop_body_perm l h1).trans
        (List.Perm.cons _ (min_heap_sink_down_perm key _ _ 0).symm)
    · rw [length_min_heap_sink_down]
      simp
      omega
  · by_cases h2 : l.length = 1
    · rw [min_heap_pop_min, if_neg h1, if_pos h2] at h
      simp only [Option.some.injEq, Prod.mk.injEq] at h
      obtain ⟨hm, hl'⟩ := h
      subst hm
      subst hl'
      obtain ⟨a, rfl⟩ := List.length_eq_one.mp h2
      exact ⟨rfl, List.Perm.refl _, by simp⟩
    · rw [min_heap_pop_min, if_neg h1, if_neg h2] at h
      cases h

theorem min_heap_pop_min_none [Inhabited α] (key : α → Nat) (l : List α)
    (h : min_heap_pop_min key l = none) : l = [] := by
  by_cases h1 : 1 < l.length
  · rw [min_heap_pop_min, if_pos h1] at h
    cases h
  · by_cases h2 : l.length = 1
    · rw [min_heap_pop_min, if_neg h1, if_pos h2] at h
      cases h
    · have h3 : l.length = 0 := by omega
      exact List.length_eq_zero.mp h3

theorem min_heap_pop_min_inv [Inhabited α] (key : α → Nat) (l : List α)
    (m : α) (l' : List α) (hinv : HeapInv key l)
    (h : min_heap_pop_min key l = some (m, l')) : HeapInv key l' := by
  by_cases h1 : 1 < l.length
  · rw [min_heap_pop_min, if_pos h1] at h
    simp only [Option.some.injEq, Prod.mk.injEq] at h
    obtain ⟨hm, hl'⟩ := h
    subst hl'
    apply min_heap_sink_down_inv key _ _ 0 (by omega)
    constructor
    · intro i hi hil hpi0
      have hlen : (l.dropLast.set 0 (hGet l (l.length - 1))).length =
          l.length - 1 := by simp
      rw [hlen] at hil
      have hp0 : 0 < parentIdx i := Nat.pos_of_ne_zero hpi0
      have hpl : parentIdx i < i := parentIdx_lt i hi
      rw [hGet_popbody l _ i hi hil,
        hGet_popbody l _ (parentIdx i) hp0 (by omega)]
      exact hinv i hi (by omega)
    · intro h0
      exact absurd h0 (lt_irrefl 0)
  · by_cases h2 : l.length = 1
    · rw [min_heap_pop_min, if_neg h1, if_pos h2] at h
      simp only [Option.some.injEq, Prod.mk.injEq] at h
      obtain ⟨hm, hl'⟩ := h
      subst hl'
      intro i hi hil
      simp at hil
    · rw [min_heap_pop_min, if_neg h1, if_neg h2] at h
      cases h

theorem heap_root_le [Inhabited α] (key : α → Nat) (l : List α)
    (hinv : HeapInv key l) :
    ∀ i, i < l.length → key (hGet l 0) ≤ key (hGet l i) := by
  intro i
  induction i using Nat.strong_induction_on with
  | _ i ih =>
    intro hil
    rcases Nat.eq_zero_or_pos i with rfl | hi
    · exact le_rfl
    · exact Nat.le_trans (ih (parentIdx i) (parentIdx_lt i hi)
        (Nat.lt_trans (parentIdx_lt i hi) hil)) (hinv i hi hil)

theorem min_heap_pop_min_le [Inhabited α] (key : α → Nat) (l : List α)
    (m : α) (l' : List α) (hinv : HeapInv key l)
    (h : min_heap_pop_min key l = some (m, l')) :
    ∀ y ∈ l', key m ≤ key y := by
  obtain ⟨hm, hperm, _⟩ := min_heap_pop_min_eq key l m l' h
  intro y hy
  have hyl : y ∈ l := hperm.mem_iff.mpr (List.mem_cons_of_mem m hy)
  obtain ⟨k, hk, hky⟩ := List.getElem_of_mem hyl
  subst hm
  calc key (hGet l 0) ≤ key (hGet l k) := heap_root_le key l hinv k hk
    _ = key y := by rw [hGet_eq_getElem l k hk, hky]

theorem popAllAux_spec [Inhabited α] (key : α → Nat) :
    ∀ fuel (l : List α), l.length ≤ fuel → HeapInv key l →
      (popAllAux key fuel l).Perm l ∧
      List.Sorted (fun a b => key a ≤ key b) (popAllAux key fuel l) := by
  intro fuel
  induction fuel with
  | zero =>
    intro l hl hinv
    have hnil : l = [] := List.length_eq_zero.mp (Nat.le_zero.mp hl)
    subst hnil
    exact ⟨List.Perm.refl _, List.sorted_nil⟩
  | succ fuel ih =>
    intro l hl hinv
    simp only [popAllAux]
    cases hpop : min_heap_pop_min key l with
    | none =>
      have hnil : l = [] := min_heap_pop_min_none key l hpop
      subst hnil
      exact ⟨List.Perm.refl _, List.sorted_nil⟩
    | some ml =>
      obtain ⟨m, l'⟩ := ml
      obtain ⟨hm, hperm, hlen⟩ := min_heap_pop_min_eq key l m l' hpop
      have hinv' := min_heap_pop_min_inv key l m l' hinv hpop
      have hl' : l'.length ≤ fuel := by omega
      obtain ⟨ihp, ihs⟩ := ih l' hl' hinv'
      constructor
      · exact (List.Perm.cons m ihp).trans hperm.symm
      · rw [List.sorted_cons]
        refine ⟨?_, ihs⟩
        intro b hb
        exact min_heap_pop_min_le key l m l' hinv hpop b (ihp.subset hb)

theorem min_heap_push_all_spec [Inhabited α] (key : α → Nat)
    (xs : List α) :
    HeapInv key (min_heap_push_all key xs) ∧
    (min_heap_push_all key xs).Perm xs := by
  rw [min_heap_push_all]
  have main : ∀ (ys : List α) (init : List α), HeapInv key init →
      HeapInv key (ys.foldl (min_heap_add key) init) ∧
      (ys.foldl (min_heap_add key) init).Perm (init ++ ys) := by
    intro ys
    induction ys with
    | nil =>
      intro init hinv
      refine ⟨hinv, ?_⟩
      simp
    | cons x ys ihy =>
      intro init hinv
      obtain ⟨ih1, ih2⟩ := ihy (min_heap_add key init x)
        (min_heap_add_inv key init x hinv)
      refine ⟨ih1, ?_⟩
      have step1 : (min_heap_add key init x ++ ys).Perm ((x :: init) ++ ys) :=
        (min_heap_add_perm key init x).append_right ys
      exact ih2.trans (step1.trans List.perm_middle.symm)
  have h0 : HeapInv key ([] : List α) := by
    intro i hi hil
    simp at hil
  simpa using main xs [] h0

/-! ## C2: the heap pops values in non-decreasing priority order -/

/-- C2: pushing any sequence of values into a min_heap (the priority of a
value read through `key`: the node's `f` in `NODE` mode, the integer itself
in `INTEGER` mode) and then popping until empty yields exactly the pushed
values, in non-decreasing order of priority. -/
theorem min_heap_pop_all_sorted [Inhabited α] (key : α → Nat)
    (xs : List α) :
    List.Sorted (fun a b => key a ≤ key b)
      (min_heap_pop_all key (min_heap_push_all key xs)) ∧
    (min_heap_pop_all key (min_heap_push_all key xs)).Perm xs := by
  obtain ⟨hinv, hperm⟩ := min_heap_push_all_spec key xs
  obtain ⟨hp, hs⟩ := popAllAux_spec key (min_heap_push_all key xs).length
    (min_heap_push_all key xs) le_rfl hinv
  exact ⟨hs, hp.trans hperm⟩

/-! ## C7: the heap shape invariant under any push/pop sequence -/

/-- C7: after any sequence of `push`/`pop_min` calls starting from the
empty heap, every stored element other than the root has priority at least
its parent's, the parent of slot `i > 0` being slot `(i-1)/2` (children of
`i` sit at `2i+1` and `2i+2`). -/
theorem min_heap_ops_invariant [Inhabited α] (key : α → Nat)
    (ops : List (HeapOp α)) (l : List α)
    (h : applyHeapOps key ops [] = some l) : HeapInv key l := by
  have main : ∀ (os : List (HeapOp α)) (l0 : List α), HeapInv key l0 →
      applyHeapOps key os l0 = some l → HeapInv key l := by
    intro os
    induction os with
    | nil =>
      intro l0 hinv h0
      simp only [applyHeapOps, Option.some.injEq] at h0
      exact h0 ▸ hinv
    | cons op os iho =>
      intro l0 hinv h0
      cases op with
      | push x =>
        exact iho (min_heap_add key l0 x) (min_heap_add_inv key l0 x hinv) h0
      | pop =>
        simp only [applyHeapOps] at h0
        cases hpop : min_heap_pop_min key l0 with
        | none => rw [hpop] at h0; cases h0
        | some ml =>
          obtain ⟨m, l'⟩ := ml
          rw [hpop] at h0
          exact iho l' (min_heap_pop_min_inv key l0 m l' hinv hpop) h0
  have h0 : HeapInv key ([] : List α) := by
    intro i hi hil
    simp at hil
  exact main ops [] h0 h

/-- Witness for `min_heap_ops_invariant`: the heap left by the call
sequence push 5, push 3, push 8, pop_min, push 1 (in `INTEGER` mode). -/
theorem min_heap_ops_invariant_witness :
    HeapInv (fun n : Nat => n) [1, 8, 5] :=
  min_heap_ops_invariant (fun n : Nat => n)
    [.push 5, .push 3, .push 8, .pop, .push 1] [1, 8, 5] (by rfl)

/-! ## Search-loop invariant machinery -/

theorem min_heap_val_exists_iff [DecidableEq α] (l : List α) (x : α) :
    min_heap_val_exists l x = true ↔ x ∈ l := by
  induction l with
  | nil => simp [min_heap_val_exists]
  | cons a t ih =>
    simp only [min_heap_val_exists, Bool.or_eq_true, decide_eq_true_eq,
      List.mem_cons, ih]
    constructor
    · rintro (rfl | h)
      · exact Or.inl rfl
      · exact Or.inr h
    · rintro (rfl | h)
      · exact Or.inl rfl
      · exact Or.inr h

theorem shapeEq_refl (gp : Graph) : ShapeEq gp gp :=
  ⟨rfl, rfl, fun j => ⟨rfl, rfl, rfl, rfl, rfl, rfl⟩⟩

theorem shapeEq_trans (g1 g2 g3 : Graph) (h1 : ShapeEq g1 g2)
    (h2 : ShapeEq g2 g3) : ShapeEq g1 g3 := by
  obtain ⟨ha1, hs1, hj1⟩ := h1
  obtain ⟨ha2, hs2, hj2⟩ := h2
  refine ⟨ha2.trans ha1, hs2.trans hs1, fun j => ?_⟩
  obtain ⟨a1, b1, c1, d1, e1, f1⟩ := hj1 j
  obtain ⟨a2, b2, c2, d2, e2, f2⟩ := hj2 j
  exact ⟨a2.trans a1, b2.trans b1, c2.trans c1, d2.trans d1, e2.trans e1,
    f2.trans f1⟩

theorem nge_of_shapeEq (gp gp' : Graph) (h : ShapeEq gp gp') (a b : Nat) :
    node_get_neighbouring_edge gp' a b = node_get_neighbouring_edge gp a b := by
  rw [node_get_neighbouring_edge, node_get_neighbouring_edge, (h.2.2 b).2.1]

theorem stepsTo_of_shapeEq (gp gp' : Graph) (h : ShapeEq gp gp')
    (a b : Nat) : StepsTo gp' a b ↔ StepsTo gp a b := by
  rw [StepsTo, StepsTo, (h.2.2 a).1, nge_of_shapeEq gp gp' h]

theorem reach_of_shapeEq (gp gp' : Graph) (h : ShapeEq gp gp') (a b : Nat) :
    Reach gp' a b ↔ Reach gp a b := by
  constructor
  · intro hr
    induction hr with
    | refl => exact Relation.ReflTransGen.refl
    | tail hstep hlast ih =>
      exact Relation.ReflTransGen.tail ih
        ((stepsTo_of_shapeEq gp gp' h _ _).mp hlast)
  · intro hr
    induction hr with
    | refl => exact Relation.ReflTransGen.refl
    | tail hstep hlast ih =>
      exact Relation.ReflTransGen.tail ih
        ((stepsTo_of_shapeEq gp gp' h _ _).mpr hlast)

theorem wfGraph_of_shapeEq (gp gp' : Graph) (h : ShapeEq gp gp')
    (hwf : WFGraph gp) : WFGraph gp' := by
  obtain ⟨hn, hs, hj⟩ := h
  refine ⟨?_, ?_, ?_, ?_⟩
  · intro i hi nb hnb
    rw [hn]
    exact hwf.nbr_valid i (hn ▸ hi) nb ((hj i).1 ▸ hnb)
  · intro i hi nb hnb
    rw [nge_of_shapeEq gp gp' ⟨hn, hs, hj⟩]
    exact hwf.edge_found i (hn ▸ hi) nb ((hj i).1 ▸ hnb)
  · intro i hi e he
    exact hwf.w_small i (hn ▸ hi) e ((hj i).2.1 ▸ he)
  · rw [hn]
    exact hwf.size_small

theorem shapeEq_setNode (gp : Graph) (i : Nat) (n : NodeData)
    (hnb : n.neighbours = (gp.node i).neighbours)
    (hed : n.edges = (gp.node i).edges)
    (hx : n.x = (gp.node i).x) (hy : n.y = (gp.node i).y)
    (hz : n.z = (gp.node i).z) (ht : n.typ = (gp.node i).typ) :
    ShapeEq gp (gp.setNode i n) := by
  refine ⟨numNodes_setNode gp i n, rfl, fun j => ?_⟩
  rw [node_setNode]
  split
  · next h => rw [← h.1]; exact ⟨hnb, hed, hx, hy, hz, ht⟩
  · exact ⟨rfl, rfl, rfl, rfl, rfl, rfl⟩

theorem wfGraphB_spec (gp : Graph) (h : wfGraphB gp = true) : WFGraph gp := by
  rw [wfGraphB, Bool.and_eq_true, List.all_eq_true] at h
  obtain ⟨h1, h2⟩ := h
  refine ⟨?_, ?_, ?_, ?_⟩
  · intro i hi nb hnb
    have := h1 i (List.mem_range.mpr hi)
    rw [Bool.and_eq_true, List.all_eq_true] at this
    have := this.1 nb hnb
    rw [Bool.and_eq_true, decide_eq_true_eq] at this
    exact this.1
  · intro i hi nb hnb
    have := h1 i (List.mem_range.mpr hi)
    rw [Bool.and_eq_true, List.all_eq_true] at this
    have := this.1 nb hnb
    rw [Bool.and_eq_true] at this
    exact this.2
  · intro i hi e he
    have := h1 i (List.mem_range.mpr hi)
    rw [Bool.and_eq_true] at this
    have h3 := this.2
    rw [List.all_eq_true] at h3
    have := h3 e he
    rw [decide_eq_true_eq] at this
    exact this
  · rw [decide_eq_true_eq] at h2
    exact h2

theorem nodup_lt_length_le (l : List Nat) (N : Nat) (hnd : l.Nodup)
    (hb : ∀ i ∈ l, i < N) : l.length ≤ N := by
  have h1 : l.toFinset ⊆ Finset.range N := by
    intro x hx
    simp only [Finset.mem_range]
    exact hb x (List.mem_toFinset.mp hx)
  have h2 := Finset.card_le_card h1
  rw [List.toFinset_card_of_nodup hnd, Finset.card_range] at h2
  exact h2

theorem countP_range_update (N : Nat) (p q : Nat → Bool) (j : Nat)
    (hj : j < N) (hsame : ∀ i, i ≠ j → p i = q i) (hp : p j = true)
    (hq : q j = false) :
    (List.range N).countP q + 1 = (List.range N).countP p := by
  induction N with
  | zero => omega
  | succ m ih =>
    rw [List.range_succ, List.countP_append, List.countP_append]
    by_cases hjm : j = m
    · subst hjm
      have heq : (List.range j).countP q = (List.range j).countP p := by
        apply List.countP_congr
        intro a ha
        rw [hsame a (by simp at ha; omega)]
      rw [heq]
      simp only [List.countP_cons, hp, hq, List.countP_nil, if_pos, if_neg,
        Bool.false_eq_true, if_false, if_true]
    · have hj' : j < m := by omega
      have heq : ([m].countP q) = ([m].countP p) := by
        simp [List.countP_cons, hsame m (by omega)]
      rw [heq]
      have := ih hj'
      omega

theorem sum_map_range_update_lt (N : Nat) (f g : Nat → Nat) (j : Nat)
    (hj : j < N) (hsame : ∀ i, i ≠ j → f i = g i) (hlt : g j < f j) :
    ((List.range N).map g).sum < ((List.range N).map f).sum := by
  induction N with
  | zero => omega
  | succ m ih =>
    rw [List.range_succ, List.map_append, List.map_append, List.sum_append,
      List.sum_append]
    by_cases hjm : j = m
    · subst hjm
      have heq : (List.range j).map g = (List.range j).map f := by
        apply List.map_congr_left
        intro a ha
        rw [hsame a (by simp at ha; omega)]
      rw [heq]
      simp only [List.map_cons, List.map_nil, List.sum_cons, List.sum_nil]
      omega
    · have hj' : j < m := by omega
      have heq : ([m].map g) = ([m].map f) := by
        simp [hsame m (by omega)]
      rw [heq]
      have := ih hj'
      omega

theorem node_out_of_range (gp : Graph) (i : Nat) (h : numNodes gp ≤ i) :
    gp.node i = default := by
  rw [Graph.node, List.getD_eq_getElem?_getD, List.getElem?_eq_none h]
  rfl

theorem node_graph_reset (gp : Graph) (j : Nat) :
    (graph_reset gp).node j = node_reset (gp.node j) := by
  rw [graph_reset, Graph.node, Graph.node]
  simp only [List.getD_eq_getElem?_getD, List.getElem?_map]
  cases h : gp.nodes[j]? with
  | none => rfl
  | some n => rfl

theorem shapeEq_graph_reset (gp : Graph) : ShapeEq gp (graph_reset gp) := by
  refine ⟨by simp [numNodes, graph_reset], rfl, fun j => ?_⟩
  rw [node_graph_reset]
  exact ⟨rfl, rfl, rfl, rfl, rfl, rfl⟩

theorem shapeEq_node_set_g (gp : Graph) (i v : Nat) :
    ShapeEq gp (node_set_g gp i v) :=
  shapeEq_setNode gp i _ rfl rfl rfl rfl rfl rfl

theorem mem_min_heap_add [Inhabited α] (key : α → Nat) (l : List α)
    (x y : α) (h : y ∈ min_heap_add key l x) : y = x ∨ y ∈ l := by
  have := (min_heap_add_perm key l x).mem_iff.mp h
  simpa using this

theorem nodup_min_heap_add (key : Nat → Nat) (l : List Nat) (x : Nat)
    (hnd : l.Nodup) (hx : x ∉ l) : (min_heap_add key l x).Nodup :=
  (min_heap_add_perm key l x).symm.nodup (List.nodup_cons.mpr ⟨hx, hnd⟩)

theorem min_heap_add_nil [Inhabited α] (key : α → Nat) (x : α) :
    min_heap_add key [] x = [x] := rfl

theorem edge_mem_of_nge (gp : Graph) (a b : Nat) (e : EdgeData)
    (h : node_get_neighbouring_edge gp a b = some e) :
    e ∈ (gp.node b).edges ∧ e.nbr = a := by
  rw [node_get_neighbouring_edge] at h
  refine ⟨List.mem_of_find?_eq_some h, ?_⟩
  have := List.find?_some h
  rwa [beq_iff_eq] at this

theorem lt_numNodes_of_nge (gp : Graph) (a b : Nat) (e : EdgeData)
    (h : node_get_neighbouring_edge gp a b = some e) : b < numNodes gp := by
  by_contra hge
  rw [node_get_neighbouring_edge, node_out_of_range gp b (by omega)] at h
  cases h

theorem w_le_of_nge (gp : Graph) (a b : Nat) (e : EdgeData)
    (hwf : WFGraph gp) (h : node_get_neighbouring_edge gp a b = some e) :
    e.w ≤ 255 :=
  hwf.w_small b (lt_numNodes_of_nge gp a b e h) e (edge_mem_of_nge gp a b e h).1

theorem relax_one_cases (goal cur nb : Nat) (gp : Graph) (hp : List Nat)
    (res : Graph × List Nat)
    (h : relax_one goal cur (gp, hp) nb = .ok res) :
    res = (gp, hp) ∨
    ∃ e, node_get_neighbouring_edge gp cur nb = some e ∧ e.w ≠ 0 ∧
      ((gp.node cur).g + e.w) % U64 < (gp.node nb).g ∧
      res.1 = gp.setNode nb
        { gp.node nb with
          cameFrom := some cur
          g := ((gp.node cur).g + e.w) % U64
          f := (((gp.node cur).g + e.w) % U64 +
            astar_h (gp.node nb) (gp.node goal) gp.gstyle) % U64 } ∧
      res.2 = (if min_heap_val_exists hp nb then hp
               else min_heap_add (nodeKey res.1) hp nb) := by
  simp only [relax_one] at h
  cases hfind : node_get_neighbouring_edge gp cur nb with
  | none => rw [hfind] at h; cases h
  | some e =>
    rw [hfind] at h
    simp only at h
    by_cases hg : e.w ≠ 0 ∧ ((gp.node cur).g + e.w) % U64 < (gp.node nb).g
    · rw [if_pos hg] at h
      refine Or.inr ⟨e, rfl, hg.1, hg.2, ?_, ?_⟩
      · rw [← congrArg Prod.fst (Except.ok.inj h)]
      · rw [← congrArg Prod.snd (Except.ok.inj h),
          ← congrArg Prod.fst (Except.ok.inj h)]
    · rw [if_neg hg] at h
      exact Or.inl (Except.ok.inj h).symm

theorem relax_update_inv (start goal cur nb : Nat) (gp gp1 : Graph)
    (hp hp1 : List Nat) (e : EdgeData)
    (hwf : WFGraph gp) (hinv : SearchInv start ⟨gp, hp, []⟩)
    (hcur : cur < numNodes gp) (hgcur : (gp.node cur).g ≠ INF)
    (hfind : node_get_neighbouring_edge gp cur nb = some e)
    (hw : e.w ≠ 0)
    (hlt : ((gp.node cur).g + e.w) % U64 < (gp.node nb).g)
    (hgp1 : gp1 = gp.setNode nb
      { gp.node nb with
        cameFrom := some cur
        g := ((gp.node cur).g + e.w) % U64
        f := (((gp.node cur).g + e.w) % U64 +
          astar_h (gp.node nb) (gp.node goal) gp.gstyle) % U64 })
    (hhp1 : hp1 = (if min_heap_val_exists hp nb then hp
                   else min_heap_add (nodeKey gp1) hp nb)) :
    WFGraph gp1 ∧ SearchInv start ⟨gp1, hp1, []⟩ ∧ ShapeEq gp gp1 ∧
    gp1.node cur = gp.node cur ∧ sumG gp1 < sumG gp ∧
    ∀ i ∈ hp1, i ∈ hp ∨ i = nb := by
  have hnb : nb < numNodes gp := lt_numNodes_of_nge gp cur nb e hfind
  have hwle : e.w ≤ 255 := w_le_of_nge gp cur nb e hwf hfind
  have hgb : (gp.node cur).g + 255 * countInf gp ≤ 255 * numNodes gp :=
    hinv.g_bound cur hcur hgcur
  have hsize : 255 * (numNodes gp + 1) < INF := hwf.size_small
  have hUpos : 0 < U64 := by rw [U64]; positivity
  have hIU : INF < U64 := by rw [INF]; omega
  have hsmall : (gp.node cur).g + e.w < INF := by omega
  have hmod : ((gp.node cur).g + e.w) % U64 = (gp.node cur).g + e.w :=
    Nat.mod_eq_of_lt (by omega)
  rw [hmod] at hlt
  have hnode_nb : gp1.node nb = { gp.node nb with
      cameFrom := some cur
      g := ((gp.node cur).g + e.w) % U64
      f := (((gp.node cur).g + e.w) % U64 +
        astar_h (gp.node nb) (gp.node goal) gp.gstyle) % U64 } := by
    rw [hgp1]; exact node_setNode_self gp nb _ hnb
  have hgnb : (gp1.node nb).g = (gp.node cur).g + e.w := by
    rw [hnode_nb]; exact hmod
  have hcfnb : (gp1.node nb).cameFrom = some cur := by rw [hnode_nb]
  have hnbcur : nb ≠ cur := by
    intro h; rw [h] at hlt; omega
  have hsg : (gp.node start).g = 0 := hinv.start_g
  have hnbstart : nb ≠ start := by
    intro h; rw [h, hsg] at hlt; omega
  have hshape : ShapeEq gp gp1 := by
    rw [hgp1]; exact shapeEq_setNode gp nb _ rfl rfl rfl rfl rfl rfl
  have hwf1 : WFGraph gp1 := wfGraph_of_shapeEq gp gp1 hshape hwf
  have hN1 : numNodes gp1 = numNodes gp := hshape.1
  have hnode_ne : ∀ j, j ≠ nb → gp1.node j = gp.node j := by
    intro j hj
    rw [hgp1]; exact node_setNode_ne gp j nb _ (Ne.symm hj)
  have hnode_cur : gp1.node cur = gp.node cur :=
    hnode_ne cur (Ne.symm hnbcur)
  have hcount1 : countInf gp1 = (List.range (numNodes gp)).countP
      (fun i => decide ((gp1.node i).g = INF)) := by
    rw [countInf, hN1]
  have hgb1 : ∀ i, i < numNodes gp1 → (gp1.node i).g ≠ INF →
      (gp1.node i).g + 255 * countInf gp1 ≤ 255 * numNodes gp1 := by
    by_cases hInfNb : (gp.node nb).g = INF
    · have hcnt : countInf gp1 + 1 = countInf gp := by
        rw [hcount1, countInf]
        exact countP_range_update (numNodes gp) _ _ nb hnb
          (fun i hi => by rw [hnode_ne i hi])
          (by simp [hInfNb])
          (by rw [hgnb]; simp only [decide_eq_false_iff_not]; omega)
      intro i hi hfin
      rw [hN1] at hi ⊢
      by_cases hieq : i = nb
      · subst hieq
        rw [hgnb]
        omega
      · rw [hnode_ne i hieq] at hfin ⊢
        have h2 : (gp.node i).g + 255 * countInf gp ≤ 255 * numNodes gp :=
          hinv.g_bound i hi hfin
        omega
    · have hcnt : countInf gp1 = countInf gp := by
        rw [hcount1, countInf]
        apply List.countP_congr
        intro a ha
        show decide ((gp1.node a).g = INF) = true ↔
          decide ((gp.node a).g = INF) = true
        by_cases hieq : a = nb
        · subst hieq
          rw [hgnb]
          simp only [decide_eq_true_eq]
          constructor
          · intro h; omega
          · intro h; exact absurd h hInfNb
        · rw [hnode_ne a hieq]
      intro i hi hfin
      rw [hN1] at hi ⊢
      by_cases hieq : i = nb
      · subst hieq
        rw [hgnb]
        have h2 : (gp.node i).g + 255 * countInf gp ≤ 255 * numNodes gp :=
          hinv.g_bound i hi hInfNb
        omega
      · rw [hnode_ne i hieq] at hfin ⊢
        have h2 : (gp.node i).g + 255 * countInf gp ≤ 255 * numNodes gp :=
          hinv.g_bound i hi hfin
        omega
  have hchain1 : ∀ n, n < numNodes gp1 → ∀ c, (gp1.node n).cameFrom = some c →
      c < numNodes gp1 ∧ (gp1.node n).g ≠ INF ∧
      ∃ e2, node_get_neighbouring_edge gp1 c n = some e2 ∧ e2.w ≠ 0 ∧
        (gp1.node c).g + e2.w ≤ (gp1.node n).g := by
    intro n hn c hc
    rw [hN1] at hn ⊢
    rw [nge_of_shapeEq gp gp1 hshape]
    by_cases hneq : n = nb
    · subst hneq
      rw [hcfnb] at hc
      injection hc with hc
      subst hc
      refine ⟨hcur, ?_, e, hfind, hw, ?_⟩
      · rw [hgnb]; omega
      · rw [hgnb, hnode_cur]
    · rw [hnode_ne n hneq] at hc ⊢
      obtain ⟨hcN, hgn, e2, hfe2, hwe2, hle2⟩ := hinv.chain n hn c hc
      have hle2' : (gp.node c).g + e2.w ≤ (gp.node n).g := hle2
      refine ⟨hcN, hgn, e2, hfe2, hwe2, ?_⟩
      by_cases hceq : c = nb
      · subst hceq
        rw [hgnb]
        omega
      · rw [hnode_ne c hceq]
        exact hle2'
  have hdisc1 : ∀ n, n < numNodes gp1 → n ≠ start → (gp1.node n).g ≠ INF →
      (gp1.node n).cameFrom ≠ none := by
    intro n hn hns hfin
    by_cases hneq : n = nb
    · subst hneq
      rw [hcfnb]
      simp
    · rw [hnode_ne n hneq] at hfin ⊢
      exact hinv.discovered n (by rw [hN1] at hn; exact hn) hns hfin
  have hsum : sumG gp1 < sumG gp := by
    rw [sumG, sumG, hN1]
    exact sum_map_range_update_lt (numNodes gp) _ _ nb hnb
      (fun i hi => by rw [hnode_ne i hi]) (by rw [hgnb]; omega)
  have hmem : ∀ i ∈ hp1, i ∈ hp ∨ i = nb := by
    intro i hi
    rw [hhp1] at hi
    by_cases hex : min_heap_val_exists hp nb = true
    · rw [if_pos hex] at hi
      exact Or.inl hi
    · rw [if_neg hex] at hi
      rcases mem_min_heap_add _ hp nb i hi with h | h
      · exact Or.inr h
      · exact Or.inl h
  have hop_val : ∀ i ∈ hp1, i < numNodes gp1 := by
    intro i hi
    rw [hN1]
    rcases hmem i hi with h | h
    · exact hinv.open_valid i h
    · rw [h]; exact hnb
  have hop_fin : ∀ i ∈ hp1, (gp1.node i).g ≠ INF := by
    intro i hi
    by_cases hieq : i = nb
    · subst hieq
      rw [hgnb]
      omega
    · rw [hnode_ne i hieq]
      rcases hmem i hi with h | h
      · exact hinv.open_fin i h
      · exact absurd h hieq
  have hop_nd : hp1.Nodup := by
    rw [hhp1]
    by_cases hex : min_heap_val_exists hp nb = true
    · rw [if_pos hex]
      exact hinv.open_nodup
    · rw [if_neg hex]
      apply nodup_min_heap_add _ hp nb hinv.open_nodup
      intro hmemnb
      exact hex ((min_heap_val_exists_iff hp nb).mpr hmemnb)
  have hstart_node : gp1.node start = gp.node start :=
    hnode_ne start (Ne.symm hnbstart)
  refine ⟨hwf1, ?_, hshape, hnode_cur, hsum, hmem⟩
  exact { open_valid := hop_val
          open_fin := hop_fin
          open_nodup := hop_nd
          start_valid := by rw [hN1]; exact hinv.start_valid
          start_g := by rw [hstart_node]; exact hinv.start_g
          start_cf := by rw [hstart_node]; exact hinv.start_cf
          g_bound := hgb1
          chain := hchain1
          discovered := hdisc1
          path_nil := rfl }

theorem relax_fold_spec (start goal cur : Nat) :
    ∀ (ns : List Nat) (gp : Graph) (hp : List Nat),
    WFGraph gp → SearchInv start ⟨gp, hp, []⟩ →
    cur < numNodes gp → (gp.node cur).g ≠ INF →
    (∀ nb ∈ ns, nb ∈ (gp.node cur).neighbours) →
    ∃ gp' hp',
      ns.foldlM (relax_one goal cur) ((gp, hp) : Graph × List Nat) =
        .ok (gp', hp') ∧
      WFGraph gp' ∧ SearchInv start ⟨gp', hp', []⟩ ∧ ShapeEq gp gp' ∧
      gp'.node cur = gp.node cur ∧
      ((gp' = gp ∧ hp' = hp) ∨ sumG gp' < sumG gp) ∧
      (∀ i ∈ hp', i ∈ hp ∨ StepsTo gp cur i) := by
  intro ns
  induction ns with
  | nil =>
    intro gp hp hwf hinv hcur hgcur hsub
    exact ⟨gp, hp, rfl, hwf, hinv, shapeEq_refl gp, rfl,
      Or.inl ⟨rfl, rfl⟩, fun i hi => Or.inl hi⟩
  | cons nb rest ih =>
    intro gp hp hwf hinv hcur hgcur hsub
    have hfound : (node_get_neighbouring_edge gp cur nb).isSome :=
      hwf.edge_found cur hcur nb (hsub nb (List.mem_cons_self nb rest))
    obtain ⟨e, hfind⟩ := Option.isSome_iff_exists.mp hfound
    have hrel : ∃ res, relax_one goal cur (gp, hp) nb = .ok res := by
      simp only [relax_one, hfind]
      by_cases hg : e.w ≠ 0 ∧ ((gp.node cur).g + e.w) % U64 < (gp.node nb).g
      · rw [if_pos hg]; exact ⟨_, rfl⟩
      · rw [if_neg hg]; exact ⟨_, rfl⟩
    obtain ⟨res, hres⟩ := hrel
    rcases relax_one_cases goal cur nb gp hp res hres with hsame |
      ⟨e2, hfind2, hw2, hlt2, hres1, hres2⟩
    · rw [hsame] at hres
      obtain ⟨gp', hp', hfold, hwf', hinv', hshape', hcur', hdisj, hmem'⟩ :=
        ih gp hp hwf hinv hcur hgcur
          (fun nb' h => hsub nb' (List.mem_cons_of_mem nb h))
      refine ⟨gp', hp', ?_, hwf', hinv', hshape', hcur', hdisj, hmem'⟩
      rw [List.foldlM_cons, hres]
      exact hfold
    · obtain ⟨hwf1, hinv1, hshape1, hcur1, hsum1, hmem1⟩ :=
        relax_update_inv start goal cur nb gp res.1 hp res.2 e2 hwf hinv
          hcur hgcur hfind2 hw2 hlt2 hres1 hres2
      obtain ⟨gp', hp', hfold, hwf', hinv', hshape', hcur', hdisj, hmem'⟩ :=
        ih res.1 res.2 hwf1 hinv1 (by rw [hshape1.1]; exact hcur)
          (by rw [hcur1]; exact hgcur)
          (fun nb' h => by
            rw [(hshape1.2.2 cur).1]
            exact hsub nb' (List.mem_cons_of_mem nb h))
      refine ⟨gp', hp', ?_, hwf', hinv',
        shapeEq_trans gp res.1 gp' hshape1 hshape',
        by rw [hcur', hcur1], Or.inr ?_, ?_⟩
      · rw [List.foldlM_cons, hres]
        exact hfold
      · rcases hdisj with ⟨hgeq, _⟩ | hlt'
        · rw [hgeq]; exact hsum1
        · exact Nat.lt_trans hlt' hsum1
      · intro i hi
        rcases hmem' i hi with h | h
        · rcases hmem1 i h with h2 | h2
          · exact Or.inl h2
          · refine Or.inr ?_
            rw [h2]
            exact ⟨hsub nb (List.mem_cons_self nb rest), e2, hfind2, hw2⟩
        · exact Or.inr ((stepsTo_of_shapeEq gp res.1 hshape1 cur i).mp h)

theorem relax_all_spec (start goal cur : Nat) (gp : Graph) (hp : List Nat)
    (hwf : WFGraph gp) (hinv : SearchInv start ⟨gp, hp, []⟩)
    (hcur : cur < numNodes gp) (hgcur : (gp.node cur).g ≠ INF) :
    ∃ gp' hp', relax_all goal cur gp hp = .ok (gp', hp') ∧
      WFGraph gp' ∧ SearchInv start ⟨gp', hp', []⟩ ∧ ShapeEq gp gp' ∧
      ((gp' = gp ∧ hp' = hp) ∨ sumG gp' < sumG gp) ∧
      (∀ i ∈ hp', i ∈ hp ∨ StepsTo gp cur i) := by
  obtain ⟨gp', hp', hfold, hwf', hinv', hshape', hcur', hdisj, hmem'⟩ :=
    relax_fold_spec start goal cur (gp.node cur).neighbours gp hp hwf hinv
      hcur hgcur (fun nb h => h)
  exact ⟨gp', hp', hfold, hwf', hinv', hshape', hdisj, hmem'⟩

theorem searchInv_pop (start : Nat) (st : AState) (cur : Nat)
    (hp1 : List Nat) (hinv : SearchInv start st)
    (hpop : min_heap_pop_min (nodeKey st.gp) st.openset = some (cur, hp1)) :
    SearchInv start ⟨st.gp, hp1, []⟩ ∧ cur ∈ st.openset ∧
    hp1.length + 1 = st.openset.length := by
  obtain ⟨hm, hperm, hlen⟩ :=
    min_heap_pop_min_eq (nodeKey st.gp) st.openset cur hp1 hpop
  have hsub : ∀ i ∈ hp1, i ∈ st.openset := fun i hi =>
    hperm.mem_iff.mpr (List.mem_cons_of_mem cur hi)
  have hcur : cur ∈ st.openset :=
    hperm.mem_iff.mpr (List.mem_cons_self cur hp1)
  have hnd : hp1.Nodup :=
    (List.nodup_cons.mp (hperm.nodup hinv.open_nodup)).2
  exact ⟨{ open_valid := fun i hi => hinv.open_valid i (hsub i hi)
           open_fin := fun i hi => hinv.open_fin i (hsub i hi)
           open_nodup := hnd
           start_valid := hinv.start_valid
           start_g := hinv.start_g
           start_cf := hinv.start_cf
           g_bound := hinv.g_bound
           chain := hinv.chain
           discovered := hinv.discovered
           path_nil := rfl }, hcur, hlen⟩

theorem head_append_left (l l' : List α) (a : α) (h : l.head? = some a) :
    (l ++ l').head? = some a := by
  cases l with
  | nil => cases h
  | cons x t => exact h

theorem path_edges_ok_snoc (gp : Graph) (e : EdgeData) :
    ∀ (l : List Nat) (a b : Nat), l.getLast? = some a →
    node_get_neighbouring_edge gp a b = some e →
    path_edges_ok gp (l ++ [b]) = (path_edges_ok gp l && (e.w != 0)) := by
  intro l
  induction l with
  | nil => intro a b h; cases h
  | cons x t ih =>
    intro a b hlast hedge
    cases t with
    | nil =>
      have hax : a = x := by
        rw [List.getLast?_singleton] at hlast
        exact (Option.some.inj hlast).symm
      subst hax
      simp only [List.cons_append, List.nil_append, path_edges_ok, hedge]
      simp [Bool.and_comm]
    | cons y t2 =>
      have hlast2 : (y :: t2).getLast? = some a := by
        rw [List.getLast?_cons_cons] at hlast
        exact hlast
      have := ih a b hlast2 hedge
      simp only [List.cons_append] at this ⊢
      rw [path_edges_ok, this]
      conv_rhs => rw [path_edges_ok]
      rw [Bool.and_assoc]

theorem pathWeight_snoc (gp : Graph) (e : EdgeData) :
    ∀ (l : List Nat) (a b : Nat), l.getLast? = some a →
    node_get_neighbouring_edge gp a b = some e →
    pathWeight gp (l ++ [b]) = pathWeight gp l + e.w := by
  intro l
  induction l with
  | nil => intro a b h; cases h
  | cons x t ih =>
    intro a b hlast hedge
    cases t with
    | nil =>
      have hax : a = x := by
        rw [List.getLast?_singleton] at hlast
        exact (Option.some.inj hlast).symm
      subst hax
      simp only [List.cons_append, List.nil_append, pathWeight, hedge]
      omega
    | cons y t2 =>
      have hlast2 : (y :: t2).getLast? = some a := by
        rw [List.getLast?_cons_cons] at hlast
        exact hlast
      have := ih a b hlast2 hedge
      simp only [List.cons_append] at this ⊢
      rw [pathWeight, this]
      conv_rhs => rw [pathWeight]
      omega

theorem recon_loop_spec (start : Nat) (gp : Graph) (hp0 : List Nat)
    (hwf : WFGraph gp) (hinv : SearchInv start ⟨gp, hp0, []⟩) :
    ∀ (fuel cur : Nat) (acc p : List Nat),
    cur < numNodes gp → (gp.node cur).g ≠ INF →
    recon_loop gp start fuel cur (cur :: acc) = some p →
    ∃ q, p = q ++ cur :: acc ∧ (q ++ [cur]).head? = some start ∧
      path_edges_ok gp (q ++ [cur]) = true ∧
      pathWeight gp (q ++ [cur]) + (gp.node start).g ≤ (gp.node cur).g := by
  intro fuel
  induction fuel with
  | zero => intro cur acc p _ _ h; cases h
  | succ m ih =>
    intro cur acc p hcur hgcur h
    rw [recon_loop] at h
    by_cases hcs : cur = start
    · rw [if_pos hcs] at h
      refine ⟨[], (Option.some.inj h).symm, ?_, rfl, ?_⟩
      · rw [hcs]; rfl
      · rw [hcs]
        simp [pathWeight]
    · rw [if_neg hcs] at h
      cases hcf : (gp.node cur).cameFrom with
      | none => rw [hcf] at h; cases h
      | some c =>
        rw [hcf] at h
        obtain ⟨hcN, hgn, e, hfe, hwe, hle⟩ := hinv.chain cur hcur c hcf
        have hcN' : c < numNodes gp := hcN
        have hle' : (gp.node c).g + e.w ≤ (gp.node cur).g := hle
        have hgb : (gp.node cur).g + 255 * countInf gp ≤ 255 * numNodes gp :=
          hinv.g_bound cur hcur hgcur
        have hsize : 255 * (numNodes gp + 1) < INF := hwf.size_small
        have hgc : (gp.node c).g ≠ INF := by omega
        obtain ⟨q', hp', hhead, hok, hwt⟩ := ih c (cur :: acc) p hcN' hgc h
        refine ⟨q' ++ [c], ?_, ?_, ?_, ?_⟩
        · rw [hp']
          simp
        · exact head_append_left (q' ++ [c]) [cur] start hhead
        · rw [path_edges_ok_snoc gp e (q' ++ [c]) c cur
            (List.getLast?_concat q') hfe, hok]
          simp [hwe]
        · rw [pathWeight_snoc gp e (q' ++ [c]) c cur
            (List.getLast?_concat q') hfe]
          omega

theorem search_loop_path_spec (start goal : Nat) :
    ∀ (fuel : Nat) (st st' : AState),
    WFGraph st.gp → SearchInv start st →
    search_loop start goal fuel st = .done st' →
    st'.path = [] ∨
      (st'.path.head? = some start ∧ st'.path.getLast? = some goal ∧
       path_edges_ok st'.gp st'.path = true ∧
       pathWeight st'.gp st'.path ≤ (st'.gp.node goal).g) := by
  intro fuel
  induction fuel with
  | zero =>
    intro st st' _ _ hdone
    cases hdone
  | succ m ih =>
    intro st st' hwf hinv hdone
    rw [search_loop] at hdone
    split at hdone
    · injection hdone with h
      subst h
      exact Or.inl hinv.path_nil
    · next cur hp1 hpop =>
      obtain ⟨hinv2, hcurmem, hlen⟩ := searchInv_pop start st cur hp1 hinv hpop
      have hcurN : cur < numNodes st.gp := hinv.open_valid cur hcurmem
      have hgcur : (st.gp.node cur).g ≠ INF := hinv.open_fin cur hcurmem
      split at hdone
      · next hcg =>
        subst hcg
        split at hdone
        · cases hdone
        · next p hrec =>
          injection hdone with h
          subst h
          rw [astar_reconstruct_path] at hrec
          obtain ⟨q, hpq, hhead, hok, hwt⟩ :=
            recon_loop_spec start st.gp hp1 hwf hinv2
              (numNodes st.gp + 1) cur [] p hcurN hgcur hrec
          have hsg : (st.gp.node start).g = 0 := hinv.start_g
          refine Or.inr ⟨?_, ?_, ?_, ?_⟩
          · show p.head? = some start
            rw [hpq]
            exact hhead
          · show p.getLast? = some cur
            rw [hpq]
            exact List.getLast?_concat q
          · show path_edges_ok st.gp p = true
            rw [hpq]
            exact hok
          · show pathWeight st.gp p ≤ (st.gp.node cur).g
            rw [hpq]
            omega
      · next hcg =>
        obtain ⟨gp', hp', hokrel, hwf', hinv', hshape', hdisj, hmem'⟩ :=
          relax_all_spec start goal cur st.gp hp1 hwf hinv2 hcurN hgcur
        split at hdone
        · cases hdone
        · next gp2 hp2 hrel =>
          rw [hokrel] at hrel
          injection hrel with hrel
          injection hrel with h1 h2
          subst h1
          subst h2
          rw [hinv.path_nil] at hdone
          exact ih ⟨gp', hp', []⟩ st' hwf' hinv' hdone

theorem astar_search_initial (gp : Graph) (start : Nat)
    (hwf : WFGraph gp) (hs : start < numNodes gp) :
    WFGraph (node_set_g (graph_reset gp) start 0) ∧
    SearchInv start ⟨node_set_g (graph_reset gp) start 0, [start], []⟩ ∧
    ShapeEq gp (node_set_g (graph_reset gp) start 0) := by
  have hsh1 : ShapeEq gp (graph_reset gp) := shapeEq_graph_reset gp
  have hsh2 : ShapeEq (graph_reset gp) (node_set_g (graph_reset gp) start 0) :=
    shapeEq_node_set_g (graph_reset gp) start 0
  have hsh : ShapeEq gp (node_set_g (graph_reset gp) start 0) :=
    shapeEq_trans _ _ _ hsh1 hsh2
  have hwf2 : WFGraph (node_set_g (graph_reset gp) start 0) :=
    wfGraph_of_shapeEq _ _ hsh hwf
  have hN : numNodes (node_set_g (graph_reset gp) start 0) = numNodes gp :=
    hsh.1
  have hNr : numNodes (graph_reset gp) = numNodes gp := hsh1.1
  have hnode_start : (node_set_g (graph_reset gp) start 0).node start =
      { (graph_reset gp).node start with g := 0 } := by
    rw [node_set_g]
    exact node_setNode_self (graph_reset gp) start _ (by rw [hNr]; exact hs)
  have hnode_ne : ∀ j, j ≠ start →
      (node_set_g (graph_reset gp) start 0).node j = node_reset (gp.node j) := by
    intro j hj
    rw [node_set_g, node_setNode_ne _ _ _ _ (Ne.symm hj), node_graph_reset]
  have hg_start : ((node_set_g (graph_reset gp) start 0).node start).g = 0 := by
    rw [hnode_start]
  have hcf_start :
      ((node_set_g (graph_reset gp) start 0).node start).cameFrom = none := by
    rw [hnode_start]
    show ((graph_reset gp).node start).cameFrom = none
    rw [node_graph_reset]
    rfl
  have hInfpos : 0 < INF := by
    have := hwf.size_small
    omega
  have hcle : countInf (node_set_g (graph_reset gp) start 0) ≤ numNodes gp := by
    rw [countInf, hN]
    calc (List.range (numNodes gp)).countP _
        ≤ (List.range (numNodes gp)).length := List.countP_le_length _
      _ = numNodes gp := List.length_range (numNodes gp)
  refine ⟨hwf2, ?_, hsh⟩
  exact
    { open_valid := by
        intro i hi
        rw [List.mem_singleton] at hi
        rw [hi, hN]
        exact hs
      open_fin := by
        intro i hi
        rw [List.mem_singleton] at hi
        rw [hi, hg_start]
        omega
      open_nodup := List.nodup_singleton start
      start_valid := by rw [hN]; exact hs
      start_g := hg_start
      start_cf := hcf_start
      g_bound := by
        intro i hi hfin
        show ((node_set_g (graph_reset gp) start 0).node i).g +
            255 * countInf (node_set_g (graph_reset gp) start 0) ≤
            255 * numNodes (node_set_g (graph_reset gp) start 0)
        rw [hN]
        by_cases hieq : i = start
        · rw [hieq, hg_start]
          omega
        · have hfin' :
              ((node_set_g (graph_reset gp) start 0).node i).g ≠ INF := hfin
          rw [hnode_ne i hieq] at hfin'
          exact absurd rfl hfin'
      chain := by
        intro n hn c hc
        by_cases hneq : n = start
        · rw [hneq, hcf_start] at hc
          cases hc
        · rw [hnode_ne n hneq,
            show (node_reset (gp.node n)).cameFrom = none from rfl] at hc
          cases hc
      discovered := by
        intro n hn hns hfin
        rw [hnode_ne n hns] at hfin
        exact absurd rfl hfin
      path_nil := rfl }

/-- Claim C5 (amended): for every non-empty path returned by `astar_search`
on a well-formed graph, every pair of consecutive path nodes is connected by
an edge of nonzero weight, and the sum of the edge weights along the path is
at most (not always equal to) the final `g` value recorded on the goal node;
the path moreover starts at `start` and ends at the goal. -/
theorem astar_search_path_spec (fuel : Nat) (st st' : AState)
    (start goal : Nat) (hwf : WFGraph st.gp) (hs : start < numNodes st.gp)
    (hdone : astar_search fuel st start goal = .done st')
    (hne : astar_get_path st' ≠ []) :
    path_edges_ok st'.gp (astar_get_path st') = true ∧
    pathWeight st'.gp (astar_get_path st') ≤ (st'.gp.node goal).g ∧
    (astar_get_path st').head? = some start ∧
    (astar_get_path st').getLast? = some goal := by
  rw [astar_search] at hdone
  simp only [astar_reset, min_heap_add_nil] at hdone
  obtain ⟨hwf2, hinv2, hsh⟩ := astar_search_initial st.gp start hwf hs
  have hres := search_loop_path_spec start goal fuel
    ⟨node_set_g (graph_reset st.gp) start 0, [start], []⟩ st' hwf2 hinv2 hdone
  rcases hres with hnil | ⟨hhead, hlast, hok, hwt⟩
  · exact absurd hnil hne
  · exact ⟨hok, hwt, hhead, hlast⟩

theorem astar_search_path_spec_witness :
    WFGraph (astar_init (graph_init 1 1 2 .MANHATTAN)).gp ∧
    0 < numNodes (astar_init (graph_init 1 1 2 .MANHATTAN)).gp ∧
    astar_search 50 (astar_init (graph_init 1 1 2 .MANHATTAN)) 0 1 =
      .done c5aW ∧
    astar_get_path c5aW ≠ [] ∧
    (path_edges_ok c5aW.gp (astar_get_path c5aW) = true ∧
     pathWeight c5aW.gp (astar_get_path c5aW) ≤ (c5aW.gp.node 1).g ∧
     (astar_get_path c5aW).head? = some 0 ∧
     (astar_get_path c5aW).getLast? = some 1) :=
  ⟨wfGraphB_spec _ (by rfl), by decide, by rfl, by decide,
   astar_search_path_spec 50 (astar_init (graph_init 1 1 2 .MANHATTAN)) c5aW
     0 1 (wfGraphB_spec _ (by rfl)) (by decide) (by rfl) (by decide)⟩

theorem search_loop_no_path (start goal : Nat) :
    ∀ (fuel : Nat) (st : AState),
    WFGraph st.gp → SearchInv start st →
    (∀ i ∈ st.openset, Reach st.gp start i) →
    ¬ Reach st.gp start goal →
    loopMeasure st < fuel →
    ∃ st', search_loop start goal fuel st = .done st' ∧
      st'.path = [] ∧ st'.openset = [] := by
  intro fuel
  induction fuel with
  | zero =>
    intro st _ _ _ _ hm
    omega
  | succ m ih =>
    intro st hwf hinv hreach hnr hm
    have hm' : sumG st.gp * (numNodes st.gp + 1) + st.openset.length <
        m + 1 := hm
    cases hpop : min_heap_pop_min (nodeKey st.gp) st.openset with
    | none =>
      refine ⟨st, ?_, hinv.path_nil, min_heap_pop_min_none _ _ hpop⟩
      rw [search_loop, hpop]
    | some pr =>
      obtain ⟨cur, hp1⟩ := pr
      obtain ⟨hinv2, hcurmem, hlen⟩ := searchInv_pop start st cur hp1 hinv hpop
      obtain ⟨_, hperm, _⟩ :=
        min_heap_pop_min_eq (nodeKey st.gp) st.openset cur hp1 hpop
      have hsub : ∀ i ∈ hp1, i ∈ st.openset := fun i hi =>
        hperm.mem_iff.mpr (List.mem_cons_of_mem cur hi)
      have hcurN : cur < numNodes st.gp := hinv.open_valid cur hcurmem
      have hgcur : (st.gp.node cur).g ≠ INF := hinv.open_fin cur hcurmem
      have hcg : ¬ (cur = goal) := by
        intro h
        exact hnr (h ▸ hreach cur hcurmem)
      obtain ⟨gp', hp', hokrel, hwf', hinv', hshape', hdisj, hmem'⟩ :=
        relax_all_spec start goal cur st.gp hp1 hwf hinv2 hcurN hgcur
      have hNeq : numNodes gp' = numNodes st.gp := hshape'.1
      have hreach' : ∀ i ∈ hp', Reach gp' start i := by
        intro i hi
        refine (reach_of_shapeEq st.gp gp' hshape' start i).mpr ?_
        rcases hmem' i hi with h | h
        · exact hreach i (hsub i h)
        · exact Relation.ReflTransGen.tail (hreach cur hcurmem) h
      have hnr' : ¬ Reach gp' start goal := by
        intro h
        exact hnr ((reach_of_shapeEq st.gp gp' hshape' start goal).mp h)
      have hmeas : loopMeasure ⟨gp', hp', []⟩ < m := by
        show sumG gp' * (numNodes gp' + 1) + hp'.length < m
        rw [hNeq]
        rcases hdisj with ⟨hgeq, hheq⟩ | hslt
        · rw [hgeq, hheq]
          omega
        · have h1 : sumG gp' + 1 ≤ sumG st.gp := hslt
          have hhp'len : hp'.length ≤ numNodes st.gp := by
            apply nodup_lt_length_le hp' (numNodes st.gp) hinv'.open_nodup
            intro i hi
            have h2 : i < numNodes gp' := hinv'.open_valid i hi
            rw [hNeq] at h2
            exact h2
          have hkey : (sumG gp' + 1) * (numNodes st.gp + 1) ≤
              sumG st.gp * (numNodes st.gp + 1) :=
            Nat.mul_le_mul_right _ h1
          rw [Nat.add_mul] at hkey
          generalize sumG gp' * (numNodes st.gp + 1) = A at hkey ⊢
          generalize sumG st.gp * (numNodes st.gp + 1) = B at hkey hm'
          omega
      obtain ⟨st', hloop, hpath, hopen⟩ :=
        ih ⟨gp', hp', []⟩ hwf' hinv' hreach' hnr' hmeas
      refine ⟨st', ?_, hpath, hopen⟩
      rw [search_loop]
      simp only [hpop]
      rw [if_neg hcg]
      simp only [hokrel]
      rw [hinv.path_nil]
      exact hloop

/-- Claim C9: on a well-formed graph, when the goal is not reachable from
`start` along usable (nonzero-weight) edges, `astar_search` terminates
normally with an exhausted open set and an empty path: "no path found" is an
outcome, not an error. -/
theorem astar_search_no_path (st : AState) (start goal : Nat)
    (hwf : WFGraph st.gp) (hs : start < numNodes st.gp)
    (hnr : ¬ Reach st.gp start goal) :
    ∃ fuel st', astar_search fuel st start goal = .done st' ∧
      astar_get_path st' = [] ∧ st'.openset = [] := by
  obtain ⟨hwf2, hinv2, hsh⟩ := astar_search_initial st.gp start hwf hs
  have hnr2 : ¬ Reach (node_set_g (graph_reset st.gp) start 0) start goal := by
    intro h
    exact hnr ((reach_of_shapeEq st.gp _ hsh start goal).mp h)
  have hreach2 : ∀ i ∈ ([start] : List Nat),
      Reach (node_set_g (graph_reset st.gp) start 0) start i := by
    intro i hi
    rw [List.mem_singleton] at hi
    rw [hi]
    exact Relation.ReflTransGen.refl
  obtain ⟨st', hloop, hpath, hopen⟩ := search_loop_no_path start goal
    (loopMeasure ⟨node_set_g (graph_reset st.gp) start 0, [start], []⟩ + 1)
    ⟨node_set_g (graph_reset st.gp) start 0, [start], []⟩
    hwf2 hinv2 hreach2 hnr2 (Nat.lt_succ_self _)
  refine ⟨loopMeasure ⟨node_set_g (graph_reset st.gp) start 0, [start], []⟩ + 1,
    st', ?_, hpath, hopen⟩
  rw [astar_search]
  simp only [astar_reset, min_heap_add_nil]
  exact hloop

theorem c9G_neighbours_0 : (c9G.node 0).neighbours = [1] := by rfl

theorem c9G_neighbours_1 : (c9G.node 1).neighbours = [0] := by rfl

theorem c9_unreach : ¬ Reach c9G 0 2 := by
  intro h
  have key : ∀ b, Reach c9G 0 b → b = 0 ∨ b = 1 := by
    intro b hb
    induction hb with
    | refl => exact Or.inl rfl
    | tail hcb hstep ih =>
      rcases ih with h0 | h1
      · rw [h0] at hstep
        have := hstep.1
        rw [c9G_neighbours_0, List.mem_singleton] at this
        exact Or.inr this
      · rw [h1] at hstep
        have := hstep.1
        rw [c9G_neighbours_1, List.mem_singleton] at this
        exact Or.inl this
  rcases key 2 h with h0 | h1
  · cases h0
  · cases h1

theorem astar_search_no_path_witness :
    WFGraph (astar_init c9G).gp ∧ 0 < numNodes (astar_init c9G).gp ∧
    ¬ Reach (astar_init c9G).gp 0 2 ∧
    ∃ fuel st', astar_search fuel (astar_init c9G) 0 2 = .done st' ∧
      astar_get_path st' = [] ∧ st'.openset = [] :=
  ⟨wfGraphB_spec _ (by rfl), by decide, c9_unreach,
   astar_search_no_path (astar_init c9G) 0 2 (wfGraphB_spec _ (by rfl))
     (by decide) c9_unreach⟩

end AstarC
